import Mathlib

/-!
Shallow embedding of the stateless resource-lifecycle core of the repository
(`app/domain/paths.py`, `app/domain/tokens.py`, `app/domain/status.py`,
`app/service/kb_service.py`).

Modelling conventions:
* A Python `str` is a `List Char` (a list of Unicode scalar values).
* A Python `bytes` is a `List Nat` with every element `< 256`.
* A Python function that can raise is an `Option`/`Except`/tagged-result value;
  exceptions that escape a function uncaught by its callers are modelled as an
  explicit `uncaught` outcome.
* Python `float` values are modelled by their exact rational values; the one
  float computation performed by the code, `salt / 2**64`, is modelled by
  exact round-to-nearest-even binary64 rounding (`round53` below).
* The BLAKE2b digest used by `derive_salt` is an external library primitive
  (`hashlib`), modelled as an explicit function parameter `hash64`;
  the code only ever masks its result to 64 bits and transports it.
-/

/-! ## `app/domain/paths.py` -/

/-- The whitespace characters stripped by Python `str.strip()`. -/
def isPyWs (c : Char) : Bool :=
  c.toNat = 0x09 || c.toNat = 0x0a || c.toNat = 0x0b || c.toNat = 0x0c ||
  c.toNat = 0x0d || (0x1c ≤ c.toNat && c.toNat ≤ 0x1f) || c.toNat = 0x20 ||
  c.toNat = 0x85 || c.toNat = 0xa0 || c.toNat = 0x1680 ||
  (0x2000 ≤ c.toNat && c.toNat ≤ 0x200a) || c.toNat = 0x2028 ||
  c.toNat = 0x2029 || c.toNat = 0x202f || c.toNat = 0x205f || c.toNat = 0x3000

/-- Python `s.strip()`: drop leading and trailing whitespace. -/
def pyStrip (l : List Char) : List Char :=
  ((l.dropWhile isPyWs).reverse.dropWhile isPyWs).reverse

/-- Python `re.sub(r"/+", "/", p)`: collapse each maximal run of slashes to one. -/
def collapseSlashes : List Char → List Char
  | [] => []
  | [a] => [a]
  | a :: b :: rest =>
    if a = '/' && b = '/' then collapseSlashes (b :: rest)
    else a :: collapseSlashes (b :: rest)

/-- Python `p[2:] if p.startswith("./") else p`: strip one leading `./`. -/
def stripDotSlash : List Char → List Char
  | c1 :: c2 :: rest => if c1 = '.' ∧ c2 = '/' then rest else c1 :: c2 :: rest
  | l => l

/-- Python `p.rstrip("/")`: drop all trailing slashes. -/
def rstripSlash (l : List Char) : List Char :=
  (l.reverse.dropWhile (· = '/')).reverse

/-- The character class of `_VALID_PATH_RE = ^[ -~]+$` (printable ASCII). -/
def isPrintableAscii (c : Char) : Bool :=
  0x20 ≤ c.toNat && c.toNat ≤ 0x7e

/-- Python `str.lower()` restricted to ASCII; the code only applies it to a
substring that already passed the printable-ASCII validation. -/
def lowerAscii (c : Char) : Char :=
  if 'A' ≤ c && c ≤ 'Z' then Char.ofNat (c.toNat + 32) else c

/-- Helper for `rpartition(".")` + extension lowering, working on the reversed
list: lowercase characters until the first `.` (the last `.` of the original
list), keep everything from that dot on unchanged. -/
def lowerUntilDot : List Char → List Char
  | [] => []
  | c :: rest => if c = '.' then c :: rest else lowerAscii c :: lowerUntilDot rest

/-- Python `head, dot, ext = p.rpartition("."); p = head + "." + ext.lower() if
dot else p`: lowercase the substring after the last dot, if any. -/
def lowerExt (l : List Char) : List Char :=
  if l.contains '.' then (lowerUntilDot l.reverse).reverse else l

/-- `normalize_resource_path` from `app/domain/paths.py`; `none` models the
`ValueError`s it raises. -/
def normalize_resource_path (path : List Char) : Option (List Char) :=
  if path = [] then none
  else
    let p1 := (pyStrip path).map (fun c => if c = '\\' then '/' else c)
    let p2 := rstripSlash (stripDotSlash (collapseSlashes p1))
    if p2 = [] then none
    else if p2.all isPrintableAscii then some (lowerExt p2) else none

/-- `extension` from `app/domain/paths.py`: the substring after the last dot of
the normalized path, or empty. -/
def extension (path : List Char) : Option (List Char) :=
  (normalize_resource_path path).map (fun p =>
    if p.contains '.' then (p.reverse.takeWhile (· ≠ '.')).reverse else [])


/-! ## `app/domain/status.py` -/

/-- `PENDING_MS` threshold (milliseconds). -/
def PENDING_MS : Int := 300

/-- `PARSED_MS` threshold (milliseconds). -/
def PARSED_MS : Int := 1000

/-- The `Status` enum. -/
inductive Status
  | pending
  | parsed
  | indexed
  | error
deriving DecidableEq, Repr

/-- Fuel-driven floor of the base-2 logarithm (the fuel only makes the
recursion structural; `log2fuel n n` is the usual `log2 n`). -/
def log2fuel : Nat → Nat → Nat
  | 0, _ => 0
  | fuel + 1, n => if n < 2 then 0 else log2fuel fuel (n / 2) + 1

/-- Round a natural number to 53 significant bits, ties to even: this is the
binary64 (IEEE double) rounding of the integer numerator performed by Python's
true division `salt / 2**64` (division by the exact power of two `2**64` only
shifts the exponent and is otherwise exact for the magnitudes involved). -/
def round53 (n : Nat) : Nat :=
  if n < 2 ^ 53 then n
  else
    let k := log2fuel n n - 52
    let q := n / 2 ^ k
    let r := n % 2 ^ k
    if 2 ^ (k - 1) < r ∨ (r = 2 ^ (k - 1) ∧ q % 2 = 1) then (q + 1) * 2 ^ k
    else q * 2 ^ k

/-- `salt_to_unit` from `app/domain/status.py`: `(salt & _UINT64_MAX) /
(_UINT64_MAX + 1)` as the exact rational value of the Python float it returns.
For a negative Python int, `& _UINT64_MAX` is the nonnegative residue mod
`2**64`, i.e. `Int.emod`. -/
def salt_to_unit (salt : Int) : ℚ :=
  (round53 (salt % (2 ^ 64 : Int)).toNat : ℚ) / 2 ^ 64

/-- The error raised by `compute_status` for an out-of-range failure rate
(spec name: `InvalidFailureRate`; the code raises `ValueError`). -/
inductive StatusError
  | invalidFailureRate
deriving DecidableEq, Repr

/-- `compute_status` from `app/domain/status.py`. `failure_rate` is the exact
rational value of the Python float argument (float comparisons compare the
exact represented values, so this is faithful for every non-NaN float; a NaN
argument also takes the `invalidFailureRate` branch in Python). -/
def compute_status (created_at_ms now_ms : Int) (salt : Int) (failure_rate : ℚ) :
    Except StatusError Status :=
  if ¬ (0 ≤ failure_rate ∧ failure_rate ≤ 1) then .error .invalidFailureRate
  else
    let elapsed := max 0 (now_ms - created_at_ms)
    if elapsed < PENDING_MS then .ok .pending
    else if elapsed < PARSED_MS then .ok .parsed
    else if salt_to_unit salt < failure_rate then .ok .error
    else .ok .indexed

instance {ε α : Type} [DecidableEq ε] [DecidableEq α] : DecidableEq (Except ε α) := fun a b =>
  match a, b with
  | .ok x, .ok y => if h : x = y then .isTrue (by rw [h]) else .isFalse (by simp [h])
  | .error x, .error y => if h : x = y then .isTrue (by rw [h]) else .isFalse (by simp [h])
  | .ok _, .error _ => .isFalse (by simp)
  | .error _, .ok _ => .isFalse (by simp)

-- The float slip: `(2**64 - 1) / 2**64` rounds to exactly `1.0`.

/-! ## UTF-8 (`str.encode("utf-8")` / `bytes.decode("utf-8")`) -/

/-- A UTF-8 continuation byte. -/
def isCont (b : Nat) : Bool := 0x80 ≤ b && b < 0xc0

/-- Standard UTF-8 encoding of one Unicode scalar value. -/
def utf8EncodeChar (c : Char) : List Nat :=
  let n := c.toNat
  if n < 0x80 then [n]
  else if n < 0x800 then [0xc0 + n / 64, 0x80 + n % 64]
  else if n < 0x10000 then [0xe0 + n / 4096, 0x80 + n / 64 % 64, 0x80 + n % 64]
  else [0xf0 + n / 262144, 0x80 + n / 4096 % 64, 0x80 + n / 64 % 64, 0x80 + n % 64]

/-- Python `s.encode("utf-8")`. -/
def utf8Encode (s : List Char) : List Nat := (s.map utf8EncodeChar).flatten

/-- Python `b.decode("utf-8")` (strict): rejects invalid leads, truncated
sequences, bad continuations, overlong forms and surrogates. -/
def utf8Decode : List Nat → Option (List Char)
  | [] => some []
  | b1 :: rest =>
    if b1 < 0x80 then (utf8Decode rest).map (Char.ofNat b1 :: ·)
    else if b1 < 0xc2 then none
    else if b1 < 0xe0 then
      match rest with
      | [] => none
      | b2 :: rest2 =>
        if isCont b2 then
          (utf8Decode rest2).map (Char.ofNat ((b1 - 0xc0) * 64 + (b2 - 0x80)) :: ·)
        else none
    else if b1 < 0xf0 then
      match rest with
      | [] => none
      | b2 :: rest2 =>
        match rest2 with
        | [] => none
        | b3 :: rest3 =>
          let n := (b1 - 0xe0) * 4096 + (b2 - 0x80) * 64 + (b3 - 0x80)
          if isCont b2 ∧ isCont b3 ∧ 0x800 ≤ n ∧ ¬ (0xd800 ≤ n ∧ n < 0xe000) then
            (utf8Decode rest3).map (Char.ofNat n :: ·)
          else none
    else if b1 < 0xf5 then
      match rest with
      | [] => none
      | b2 :: rest2 =>
        match rest2 with
        | [] => none
        | b3 :: rest3 =>
          match rest3 with
          | [] => none
          | b4 :: rest4 =>
            let n := (b1 - 0xf0) * 262144 + (b2 - 0x80) * 4096 +
              (b3 - 0x80) * 64 + (b4 - 0x80)
            if isCont b2 ∧ isCont b3 ∧ isCont b4 ∧ 0x10000 ≤ n ∧ n < 0x110000 then
              (utf8Decode rest4).map (Char.ofNat n :: ·)
            else none
    else none

/-! ## URL-safe base64 (`base64.urlsafe_b64encode` / `urlsafe_b64decode`) -/

/-- The URL-safe base64 alphabet. -/
def b64Char (n : Nat) : Char :=
  if n < 26 then Char.ofNat (65 + n)
  else if n < 52 then Char.ofNat (97 + (n - 26))
  else if n < 62 then Char.ofNat (48 + (n - 52))
  else if n = 62 then '-'
  else '_'

/-- Inverse of the URL-safe base64 alphabet. -/
def b64Val (c : Char) : Option Nat :=
  if 'A' ≤ c ∧ c ≤ 'Z' then some (c.toNat - 65)
  else if 'a' ≤ c ∧ c ≤ 'z' then some (c.toNat - 97 + 26)
  else if '0' ≤ c ∧ c ≤ '9' then some (c.toNat - 48 + 52)
  else if c = '-' then some 62
  else if c = '_' then some 63
  else none

def isB64UrlChar (c : Char) : Bool := (b64Val c).isSome

/-- `base64.urlsafe_b64encode` on bytes (always emits full padding). -/
def b64encode : List Nat → List Char
  | a :: b :: c :: rest =>
    b64Char (a / 4) :: b64Char (a % 4 * 16 + b / 16) :: b64Char (b % 16 * 4 + c / 64) ::
      b64Char (c % 64) :: b64encode rest
  | [a, b] => [b64Char (a / 4), b64Char (a % 4 * 16 + b / 16), b64Char (b % 16 * 4), '=']
  | [a] => [b64Char (a / 4), b64Char (a % 4 * 16), '=', '=']
  | [] => []

/-- Decode four-character base64 groups, with padding allowed only in a final
group; any other arrangement is a `binascii.Error` (`none`). -/
def b64DecodeGroups : List Char → Option (List Nat)
  | [] => some []
  | a :: b :: c :: d :: rest =>
    if c = '=' ∧ d = '=' ∧ rest = [] then
      match b64Val a, b64Val b with
      | some va, some vb => some [va * 4 + vb / 16]
      | _, _ => none
    else if d = '=' ∧ rest = [] then
      match b64Val a, b64Val b, b64Val c with
      | some va, some vb, some vc => some [va * 4 + vb / 16, vb % 16 * 16 + vc / 4]
      | _, _, _ => none
    else
      match b64Val a, b64Val b, b64Val c, b64Val d, b64DecodeGroups rest with
      | some va, some vb, some vc, some vd, some tail =>
        some ((va * 4 + vb / 16) :: (vb % 16 * 16 + vc / 4) :: (vc % 4 * 64 + vd) :: tail)
      | _, _, _, _, _ => none
  | _ => none

/-- `base64.urlsafe_b64decode(token.encode("ascii"))` as used by the decoder:
a non-ASCII token raises `UnicodeEncodeError` (caught by the caller, hence
`none`); the base64 decoder discards characters outside the alphabet and then
requires well-padded four-character groups. (Characters of the legacy `+`/`/`
alphabet, accepted by Python on garbage inputs, are treated as non-alphabet
here; no theorem below depends on such inputs.) -/
def b64decodePy (s : List Char) : Option (List Nat) :=
  if s.all (fun c => c.toNat < 128) then
    b64DecodeGroups (s.filter (fun c => isB64UrlChar c || c = '='))
  else none


/-! ## JSON: values, the serializer output shape, and a model of `json.loads` -/

/-- JSON values. Numbers are modelled as integers: the token payload only ever
carries integers, and the parser below rejects float literals (a divergence
from `json.loads` that only shows on inputs no theorem here quantifies over). -/
inductive Json where
  | jnull
  | jbool (b : Bool)
  | jnum (n : Int)
  | jstr (s : List Char)
  | jarr (elems : List Json)
  | jobj (members : List (List Char × Json))

/-- Lowercase hexadecimal digit, as emitted by `json.dumps` escapes. -/
def hexDigit (n : Nat) : Char :=
  if n < 10 then Char.ofNat (48 + n) else Char.ofNat (87 + n)

/-- How `json.dumps(..., ensure_ascii=False)` writes one character inside a
string literal: escape the quote and backslash, short escapes for the usual
control characters, `\u00xx` for the remaining control characters, everything
else verbatim. -/
def jsonEscapeChar (c : Char) : List Char :=
  if c = '"' then ['\\', '"']
  else if c = '\\' then ['\\', '\\']
  else if c.toNat = 8 then ['\\', 'b']
  else if c.toNat = 9 then ['\\', 't']
  else if c.toNat = 10 then ['\\', 'n']
  else if c.toNat = 12 then ['\\', 'f']
  else if c.toNat = 13 then ['\\', 'r']
  else if c.toNat < 0x20 then ['\\', 'u', '0', '0', hexDigit (c.toNat / 16), hexDigit (c.toNat % 16)]
  else [c]

/-- A JSON string literal as written by `json.dumps`. -/
def dumpJsonStr (s : List Char) : List Char :=
  '"' :: (s.map jsonEscapeChar).flatten ++ ['"']

/-- Decimal digits of a natural number (the fuel only makes the recursion
structural; `natDigits` below supplies enough of it). -/
def natDigitsFuel : Nat → Nat → List Char
  | 0, _ => []
  | fuel + 1, n =>
    if n < 10 then [Char.ofNat (48 + n)]
    else natDigitsFuel fuel (n / 10) ++ [Char.ofNat (48 + n % 10)]

/-- Python `str(n)` for a nonnegative int. -/
def natDigits (n : Nat) : List Char := natDigitsFuel (n + 1) n

/-- Python `str(i)` / the integer output of `json.dumps`. -/
def intDigits (i : Int) : List Char :=
  if i < 0 then '-' :: natDigits i.natAbs else natDigits i.toNat

/-- JSON whitespace accepted by `json.loads`. -/
def jsonWs (c : Char) : Bool := c = ' ' || c = '\t' || c = '\n' || c = '\r'

def skipWs (l : List Char) : List Char := l.dropWhile jsonWs

/-- Hexadecimal digit value (either case), for `\uXXXX` escapes. -/
def hexVal (c : Char) : Option Nat :=
  if '0' ≤ c ∧ c ≤ '9' then some (c.toNat - 48)
  else if 'a' ≤ c ∧ c ≤ 'f' then some (c.toNat - 87)
  else if 'A' ≤ c ∧ c ≤ 'F' then some (c.toNat - 55)
  else none

/-- Parse a JSON string body after its opening quote, returning the string and
the rest of the input. Raw control characters are rejected (`strict=True`).
`\uXXXX` escapes naming lone surrogates are rejected (a simplification:
`json.loads` would try to pair them; the serializer never emits them). -/
def parseJStr : List Char → Option (List Char × List Char)
  | [] => none
  | c :: rest =>
    if c = '"' then some ([], rest)
    else if c = '\\' then
      match rest with
      | [] => none
      | e :: r =>
        if e = '"' then (parseJStr r).map (fun p => ('"' :: p.1, p.2))
        else if e = '\\' then (parseJStr r).map (fun p => ('\\' :: p.1, p.2))
        else if e = '/' then (parseJStr r).map (fun p => ('/' :: p.1, p.2))
        else if e = 'b' then (parseJStr r).map (fun p => (Char.ofNat 8 :: p.1, p.2))
        else if e = 'f' then (parseJStr r).map (fun p => (Char.ofNat 12 :: p.1, p.2))
        else if e = 'n' then (parseJStr r).map (fun p => ('\n' :: p.1, p.2))
        else if e = 'r' then (parseJStr r).map (fun p => (Char.ofNat 13 :: p.1, p.2))
        else if e = 't' then (parseJStr r).map (fun p => ('\t' :: p.1, p.2))
        else if e = 'u' then
          match r with
          | [] => none
          | h1 :: ru1 =>
            match ru1 with
            | [] => none
            | h2 :: ru2 =>
              match ru2 with
              | [] => none
              | h3 :: ru3 =>
                match ru3 with
                | [] => none
                | h4 :: r2 =>
                  match hexVal h1, hexVal h2, hexVal h3, hexVal h4 with
                  | some v1, some v2, some v3, some v4 =>
                    let n := v1 * 4096 + v2 * 256 + v3 * 16 + v4
                    if 0xd800 ≤ n ∧ n < 0xe000 then none
                    else (parseJStr r2).map (fun p => (Char.ofNat n :: p.1, p.2))
                  | _, _, _, _ => none
        else none
    else if c.toNat < 0x20 then none
    else (parseJStr rest).map (fun p => (c :: p.1, p.2))

/-- Accumulate a run of decimal digits. -/
def parseDigitsAcc (acc : Nat) : List Char → Nat × List Char
  | [] => (acc, [])
  | c :: rest =>
    if '0' ≤ c ∧ c ≤ '9' then parseDigitsAcc (acc * 10 + (c.toNat - 48)) rest
    else (acc, c :: rest)

/-- Parse an unsigned JSON integer; a following `.`, `e` or `E` would start a
float literal, which this model rejects (see `Json`). -/
def parseJNat : List Char → Option (Nat × List Char)
  | c :: rest =>
    if '0' ≤ c ∧ c ≤ '9' then
      match parseDigitsAcc (c.toNat - 48) rest with
      | (n, r) =>
        match r with
        | d :: _ => if d = '.' ∨ d = 'e' ∨ d = 'E' then none else some (n, r)
        | [] => some (n, [])
    else none
  | [] => none

/-- Parse a JSON integer with optional sign. -/
def parseJInt : List Char → Option (Int × List Char)
  | [] => none
  | c :: rest =>
    if c = '-' then (parseJNat rest).map (fun p => (-(p.1 : Int), p.2))
    else (parseJNat (c :: rest)).map (fun p => ((p.1 : Int), p.2))

mutual

/-- Parse one JSON value; the fuel bounds recursion depth and
`json_loads` supplies more of it than any input can consume. -/
def parseJValue : Nat → List Char → Option (Json × List Char)
  | 0, _ => none
  | fuel + 1, l =>
    match skipWs l with
    | [] => none
    | c :: rest =>
      if c = '"' then (parseJStr rest).map (fun p => (Json.jstr p.1, p.2))
      else if c = '{' then
        match skipWs rest with
        | [] => none
        | c2 :: r2 =>
          if c2 = '}' then some (Json.jobj [], r2)
          else (parseJMembers fuel (c2 :: r2)).map (fun p => (Json.jobj p.1, p.2))
      else if c = '[' then
        match skipWs rest with
        | [] => none
        | c2 :: r2 =>
          if c2 = ']' then some (Json.jarr [], r2)
          else (parseJElems fuel (c2 :: r2)).map (fun p => (Json.jarr p.1, p.2))
      else if c = 't' then
        match rest with
        | [] => none
        | c1 :: r1 =>
          match r1 with
          | [] => none
          | c2 :: r2 =>
            match r2 with
            | [] => none
            | c3 :: r =>
              if c1 = 'r' ∧ c2 = 'u' ∧ c3 = 'e' then some (.jbool true, r) else none
      else if c = 'f' then
        match rest with
        | [] => none
        | c1 :: r1 =>
          match r1 with
          | [] => none
          | c2 :: r2 =>
            match r2 with
            | [] => none
            | c3 :: r3 =>
              match r3 with
              | [] => none
              | c4 :: r =>
                if c1 = 'a' ∧ c2 = 'l' ∧ c3 = 's' ∧ c4 = 'e' then some (.jbool false, r)
                else none
      else if c = 'n' then
        match rest with
        | [] => none
        | c1 :: r1 =>
          match r1 with
          | [] => none
          | c2 :: r2 =>
            match r2 with
            | [] => none
            | c3 :: r =>
              if c1 = 'u' ∧ c2 = 'l' ∧ c3 = 'l' then some (.jnull, r) else none
      else (parseJInt (c :: rest)).map (fun p => (Json.jnum p.1, p.2))

/-- Parse the members of a JSON object after its opening brace (nonempty). -/
def parseJMembers : Nat → List Char → Option (List (List Char × Json) × List Char)
  | 0, _ => none
  | fuel + 1, l =>
    match skipWs l with
    | [] => none
    | c :: rest =>
      if c = '"' then
        match parseJStr rest with
        | none => none
        | some (key, r1) =>
          match skipWs r1 with
          | [] => none
          | c2 :: r2 =>
            if c2 = ':' then
              match parseJValue fuel r2 with
              | none => none
              | some (v, r3) =>
                match skipWs r3 with
                | [] => none
                | c3 :: r4 =>
                  if c3 = ',' then (parseJMembers fuel r4).map (fun p => ((key, v) :: p.1, p.2))
                  else if c3 = '}' then some ([(key, v)], r4)
                  else none
            else none
      else none

/-- Parse the elements of a JSON array after its opening bracket (nonempty). -/
def parseJElems : Nat → List Char → Option (List Json × List Char)
  | 0, _ => none
  | fuel + 1, l =>
    match parseJValue fuel l with
    | none => none
    | some (v, r) =>
      match skipWs r with
      | [] => none
      | c :: r2 =>
        if c = ',' then (parseJElems fuel r2).map (fun p => (v :: p.1, p.2))
        else if c = ']' then some ([v], r2)
        else none

end

/-- `json.loads`: parse one value and require only whitespace after it. -/
def json_loads (s : List Char) : Option Json :=
  match parseJValue (s.length + 1) s with
  | some (v, rest) => if skipWs rest = [] then some v else none
  | none => none

/-! ## `app/domain/tokens.py` -/

/-- `TOKEN_VERSION`. -/
def TOKEN_VERSION : Int := 1

/-- `_UINT64_MAX = (1 << 64) - 1`. -/
def UINT64_MAX : Nat := 2 ^ 64 - 1

/-- The `TokenPayload` pydantic model: `ver` with `ge=1, le=1`, `salt` with
`ge=0, le=_UINT64_MAX`; Python ints are unbounded, hence `Int` fields. -/
structure TokenPayload where
  ver : Int
  kb_id : List Char
  rp : List Char
  ca_ms : Int
  salt : Int
deriving DecidableEq, Repr

/-- Lookup in the dict built by `json.loads`: a duplicated key keeps its last
occurrence. -/
def lookupLast (kvs : List (List Char × Json)) (key : List Char) : Option Json :=
  match kvs with
  | [] => none
  | (k, v) :: rest =>
    match lookupLast rest key with
    | some r => some r
    | none => if k = key then some v else none

/-- An int-typed pydantic field: accepts a JSON integer. -/
def getInt? : Option Json → Option Int
  | some (.jnum n) => some n
  | _ => none

/-- A str-typed pydantic field: accepts a JSON string. -/
def getStr? : Option Json → Option (List Char)
  | some (.jstr s) => some s
  | _ => none

/-- `TokenPayload(**data)` for a dict `data`: required fields with type and
range checks; extra keys are ignored (pydantic default). Pydantic's lax
coercions (numeric strings to int, integral floats to int) are not modelled:
the inputs our theorems quantify over carry exact JSON types. `none` is a
`pydantic.ValidationError`. -/
def validateTokenPayload (kvs : List (List Char × Json)) : Option TokenPayload :=
  match getInt? (lookupLast kvs "ver".toList), getStr? (lookupLast kvs "kb_id".toList),
      getStr? (lookupLast kvs "rp".toList), getInt? (lookupLast kvs "ca_ms".toList),
      getInt? (lookupLast kvs "salt".toList) with
  | some ver, some kb, some rp, some ca, some salt =>
    if 1 ≤ ver ∧ ver ≤ 1 ∧ 0 ≤ salt ∧ salt ≤ (UINT64_MAX : Int) then
      some ⟨ver, kb, rp, ca, salt⟩
    else none
  | _, _, _, _, _ => none

/-- The observable outcomes of `decode_resource_token`: a payload, one of the
two `TokenError` subclasses (`MalformedTokenError`, carrying code
`malformed_token`, and `UnsupportedTokenVersionError`, carrying code
`unsupported_token_version`), or a non-`TokenError` exception escaping the
function: the `TypeError` from `TokenPayload(**data)` when `data` is not a
dict, or the `ValueError` from `normalize_resource_path` at the
re-normalization check on line 143, neither of which the function catches. -/
inductive DecodeResult where
  | ok (payload : TokenPayload)
  | malformedToken
  | unsupportedTokenVersion
  | uncaught
deriving DecidableEq, Repr

/-- `decode_resource_token` from `app/domain/tokens.py`. -/
def decode_resource_token (token : List Char) : DecodeResult :=
  match b64decodePy token with
  | none => .malformedToken
  | some raw =>
    match utf8Decode raw with
    | none => .malformedToken
    | some txt =>
      match json_loads txt with
      | none => .malformedToken
      | some (.jobj kvs) =>
        match validateTokenPayload kvs with
        | none => .malformedToken
        | some pl =>
          if pl.ver ≠ TOKEN_VERSION then .unsupportedTokenVersion
          else
            match normalize_resource_path pl.rp with
            | none => .uncaught
            | some rp2 => if pl.rp ≠ rp2 then .malformedToken else .ok pl
      | some _ => .uncaught

/-- `derive_salt` from `app/domain/tokens.py`. `hash64` stands for the
external primitive `int.from_bytes(hashlib.blake2b(data, digest_size=16)
.digest()[8:], "little")`: an arbitrary deterministic map from byte strings to
integers, which the code only masks with `_UINT64_MAX` and transports; the
argument is the UTF-8 encoding of the f-string `f"{seed}|{kb_id}|{path}"`. -/
def derive_salt (hash64 : List Nat → Nat) (seed : Int) (kb_id resource_path : List Char) : Nat :=
  hash64 (utf8Encode (intDigits seed ++ '|' :: kb_id ++ '|' :: resource_path)) % 2 ^ 64

/-- The JSON text `json.dumps(payload.model_dump(), separators=(",", ":"),
ensure_ascii=False)` produces for a `TokenPayload`: keys in field declaration
order, compact separators, no trailing whitespace. -/
def dumpPayloadJson (pl : TokenPayload) : List Char :=
  '{' :: (dumpJsonStr "ver".toList ++ ':' :: intDigits pl.ver ++
    ',' :: dumpJsonStr "kb_id".toList ++ ':' :: dumpJsonStr pl.kb_id ++
    ',' :: dumpJsonStr "rp".toList ++ ':' :: dumpJsonStr pl.rp ++
    ',' :: dumpJsonStr "ca_ms".toList ++ ':' :: intDigits pl.ca_ms ++
    ',' :: dumpJsonStr "salt".toList ++ ':' :: intDigits pl.salt ++ ['}'])

/-- `encode_resource_token` from `app/domain/tokens.py`; `none` is the
`ValueError` from `normalize_resource_path` (the `TokenPayload` constructor
cannot fail here: `ver` is the constant 1 and the salt is masked into range).
-/
def encode_resource_token (hash64 : List Nat → Nat) (kb_id resource_path : List Char)
    (created_at_ms seed : Int) : Option (List Char) :=
  (normalize_resource_path resource_path).map fun rp =>
    let salt := derive_salt hash64 seed kb_id rp
    b64encode (utf8Encode (dumpPayloadJson ⟨TOKEN_VERSION, kb_id, rp, created_at_ms, (salt : Int)⟩))

/-! ## `app/service/kb_service.py` -/

/-- One element of the list returned by `list_children`. `error_code` is
present exactly on error items; the free-form human `error_message` (present
exactly when `error_code` is) is not modelled. -/
structure ChildItem where
  resource_id : List Char
  resource_path : List Char
  status : Status
  updated_at : Int
  error_code : Option (List Char)
deriving DecidableEq, Repr

/-- How `list_children` can fail as a whole: the `ValueError("missing_ids")`
for an empty batch, or an exception escaping the loop: a non-`TokenError`
from `decode_resource_token` (its `except TokenError` does not catch those) or
the `ValueError` from `compute_status` (unreachable for an environment-derived
failure rate, which is pre-validated to `[0,1]`). -/
inductive ListChildrenError where
  | missingIds
  | uncaught
deriving DecidableEq, Repr

/-- The `for tok in ids` loop body of `list_children`. -/
def list_children_go (kb_id : List Char) (now : Int) (failure_rate : ℚ) :
    List (List Char) → Except ListChildrenError (List ChildItem)
  | [] => .ok []
  | tok :: rest =>
    match decode_resource_token tok with
    | .uncaught => .error .uncaught
    | .malformedToken =>
      (list_children_go kb_id now failure_rate rest).map
        (⟨tok, [], .error, now, some "malformed_token".toList⟩ :: ·)
    | .unsupportedTokenVersion =>
      (list_children_go kb_id now failure_rate rest).map
        (⟨tok, [], .error, now, some "unsupported_token_version".toList⟩ :: ·)
    | .ok pl =>
      if pl.kb_id ≠ kb_id then
        (list_children_go kb_id now failure_rate rest).map
          (⟨tok, pl.rp, .error, now, some "kb_mismatch".toList⟩ :: ·)
      else
        match compute_status pl.ca_ms now pl.salt failure_rate with
        | .error _ => .error .uncaught
        | .ok st =>
          (list_children_go kb_id now failure_rate rest).map
            (⟨tok, pl.rp, st, now, none⟩ :: ·)

/-- `list_children` from `app/service/kb_service.py`, with the ambient inputs
(`now_ms()` and the pre-validated environment failure rate) passed explicitly.
-/
def list_children (kb_id : List Char) (ids : List (List Char)) (now : Int)
    (failure_rate : ℚ) : Except ListChildrenError (List ChildItem) :=
  if ids = [] then .error .missingIds
  else list_children_go kb_id now failure_rate ids

/-! ## Concrete material for counterexamples and witnesses -/

/-- The spec's ordering `pending < parsed < terminal`; the two terminal
statuses share a rank. -/
def statusRank : Status → Nat
  | .pending => 0
  | .parsed => 1
  | .indexed => 2
  | .error => 2

/-- A concrete stand-in for the opaque BLAKE2b-derived `hash64` primitive,
used to instantiate witnesses. -/
def hashW : List Nat → Nat := fun l => l.length * 1000003

/-- `base64.urlsafe_b64encode` of the JSON text
`{"ver":1,"kb_id":"k","rp":"/","ca_ms":0,"salt":0}`
(the token `eyJ2ZXIiOjEsImtiX2lkIjoiayIsInJwIjoiLyIsImNhX21zIjowLCJzYWx0IjowfQ==`):
schema-valid, version 1, but its `rp` makes `normalize_resource_path` raise. -/
def slashRpToken : List Char :=
  b64encode (utf8Encode (dumpPayloadJson ⟨1, "k".toList, "/".toList, 0, 0⟩))

/-- `base64.urlsafe_b64encode` of the JSON text
`{"ver":2,"kb_id":"k","rp":"x","ca_ms":0,"salt":0}`
(the token `eyJ2ZXIiOjIsImtiX2lkIjoiayIsInJwIjoieCIsImNhX21zIjowLCJzYWx0IjowfQ==`):
well-formed except that its version field is 2. -/
def verTwoToken : List Char :=
  b64encode (utf8Encode (dumpPayloadJson ⟨2, "k".toList, "x".toList, 0, 0⟩))

/-- A token of knowledge base `"a"` (salt 0, created at 0), for exercising the
`kb_mismatch` branch. -/
def kbAToken : List Char :=
  b64encode (utf8Encode (dumpPayloadJson ⟨1, "a".toList, "x".toList, 0, 0⟩))

/-- Scalar JSON values (the only values the token payload carries). -/
def dumpScalar : Json → List Char
  | .jnum n => intDigits n
  | .jstr s => dumpJsonStr s
  | _ => []

/-- A scalar value (integer or string). -/
def IsScalar : Json → Prop
  | .jnum _ => True
  | .jstr _ => True
  | _ => False

/-- The serialized members of a compact JSON object, each `"key":value`,
comma-separated, closed by `}`. -/
def dumpMembers : List (List Char × Json) → List Char
  | [] => ['}']
  | [(k, v)] => dumpJsonStr k ++ ':' :: (dumpScalar v ++ ['}'])
  | (k, v) :: rest => dumpJsonStr k ++ ':' :: (dumpScalar v ++ ',' :: dumpMembers rest)

/-- The input does not continue a number literal: its first character is not a
digit and not `.`, `e` or `E`. -/
def numBoundary : List Char → Prop
  | [] => True
  | c :: _ => ¬ ('0' ≤ c ∧ c ≤ '9') ∧ c ≠ '.' ∧ c ≠ 'e' ∧ c ≠ 'E'

/-- The member list `json.loads` recovers from a serialized `TokenPayload`. -/
def payloadMembers (pl : TokenPayload) : List (List Char × Json) :=
  [("ver".toList, .jnum pl.ver), ("kb_id".toList, .jstr pl.kb_id),
   ("rp".toList, .jstr pl.rp), ("ca_ms".toList, .jnum pl.ca_ms),
   ("salt".toList, .jnum pl.salt)]

/-! # Helper lemmas: the status oracle -/

theorem salt_to_unit_nonneg (s : Int) : 0 ≤ salt_to_unit s := by
  unfold salt_to_unit
  positivity

theorem salt_to_unit_zero : salt_to_unit 0 = 0 := by
  unfold salt_to_unit
  norm_num [round53]

/-- Evaluation of `compute_status` in the terminal region for salt 0 and
failure rate 1 (used to discharge witness hypotheses). -/
theorem compute_status_term_salt0 (now : Int) (h : (1000 : Int) ≤ now) :
    compute_status 0 now 0 1 = .ok .error := by
  simp only [compute_status, PENDING_MS, PARSED_MS]
  rw [if_neg (by decide), if_neg (by omega), if_neg (by omega), salt_to_unit_zero,
    if_pos (by decide)]

/-! # C5: the `compute_status` contract -/

/-- C5: `compute_status` fails with the invalid-failure-rate error when
`failure_rate` is outside `[0,1]`; otherwise, with elapsed time
`max 0 (now_ms - created_at_ms)` (negative clock skew clamped to zero), it
returns `pending` below 300 ms, `parsed` in [300 ms, 1000 ms), and from
1000 ms on `error` exactly when `salt_to_unit salt < failure_rate`, `indexed`
otherwise. -/
theorem C5_compute_status_contract (c n s : Int) (fr : ℚ) :
    (¬ (0 ≤ fr ∧ fr ≤ 1) → compute_status c n s fr = .error .invalidFailureRate) ∧
    (0 ≤ fr → fr ≤ 1 →
      (max 0 (n - c) < 300 → compute_status c n s fr = .ok .pending) ∧
      (300 ≤ max 0 (n - c) → max 0 (n - c) < 1000 → compute_status c n s fr = .ok .parsed) ∧
      (1000 ≤ max 0 (n - c) →
        compute_status c n s fr = .ok (if salt_to_unit s < fr then .error else .indexed))) := by
  simp only [compute_status, PENDING_MS, PARSED_MS]
  refine ⟨fun h => ?_, fun h0 h1 => ⟨fun h2 => ?_, fun h2 h3 => ?_, fun h2 => ?_⟩⟩
  · rw [if_pos h]
  · rw [if_neg (by tauto), if_pos (by omega)]
  · rw [if_neg (by tauto), if_neg (by omega), if_pos (by omega)]
  · rw [if_neg (by tauto), if_neg (by omega), if_neg (by omega)]
    split <;> rfl

theorem C5_compute_status_contract_witness :
    (¬ (0 ≤ (-1 : ℚ) ∧ (-1 : ℚ) ≤ 1) ∧
      compute_status 0 0 0 (-1) = .error .invalidFailureRate) ∧
    (0 ≤ (1 : ℚ) ∧ (1 : ℚ) ≤ 1 ∧ (1000 : Int) ≤ max 0 ((2000 : Int) - 0) ∧
      compute_status 0 2000 0 1 = .ok (if salt_to_unit 0 < 1 then .error else .indexed)) :=
  ⟨⟨by decide, (C5_compute_status_contract 0 0 0 (-1)).1 (by decide)⟩,
   by decide, by decide, by decide,
   ((C5_compute_status_contract 0 2000 0 1).2 (by decide) (by decide)).2.2 (by decide)⟩

/-! # C6: monotone progression, stable terminal value -/

/-- C6: for fixed created time, salt and failure rate, the status is
non-decreasing through pending < parsed < terminal as `now_ms` increases, and
from 1000 ms of elapsed time on the result is the same for every later query
time. -/
theorem C6_compute_status_monotone (c s : Int) (fr : ℚ) (n1 n2 : Int) (hn : n1 ≤ n2)
    (st1 st2 : Status) (h1 : compute_status c n1 s fr = .ok st1)
    (h2 : compute_status c n2 s fr = .ok st2) :
    statusRank st1 ≤ statusRank st2 ∧ (1000 ≤ n1 - c → st1 = st2) := by
  simp only [compute_status, PENDING_MS, PARSED_MS] at h1 h2
  split_ifs at h1 h2 <;> cases h1 <;> cases h2 <;>
    exact ⟨by simp only [statusRank]; omega, fun ht => by first | rfl | omega⟩

theorem C6_compute_status_monotone_witness :
    ((1000 : Int) ≤ 2000 ∧ compute_status 0 1000 0 1 = .ok .error ∧
      compute_status 0 2000 0 1 = .ok .error) ∧
    statusRank .error ≤ statusRank .error ∧ (1000 ≤ (1000 : Int) - 0 → Status.error = .error) :=
  ⟨⟨by decide, compute_status_term_salt0 1000 (by decide),
    compute_status_term_salt0 2000 (by decide)⟩,
   C6_compute_status_monotone 0 0 1 1000 2000 (by decide) .error .error
     (compute_status_term_salt0 1000 (by decide)) (compute_status_term_salt0 2000 (by decide))⟩

/-! # C7: the boundary failure rates -/

/-- C7, as the code actually behaves at the failing input: for the top salt
`2^64 - 1` the Python float division `salt / 2**64` rounds to exactly `1.0`
(despite `salt_to_unit`'s documented range `[0,1)`), so with
`failure_rate = 1.0` the draw is not below the failure rate and the terminal
status is `indexed`, where the claim demands `error`. -/
theorem C7_failure_rate_one_top_salt_indexed :
    salt_to_unit (2 ^ 64 - 1) = 1 ∧
    compute_status 0 1000 (2 ^ 64 - 1) 1 = .ok .indexed := by
  have hu : salt_to_unit (2 ^ 64 - 1) = 1 := by
    unfold salt_to_unit
    have h : round53 (((2 : Int) ^ 64 - 1) % ((2 : Int) ^ 64)).toNat = 2 ^ 64 := by decide
    rw [h]
    norm_num
  refine ⟨hu, ?_⟩
  simp only [compute_status, PENDING_MS, PARSED_MS]
  rw [if_neg (by decide), if_neg (by decide), if_neg (by decide), hu, if_neg (by decide)]

/-! # C10: time-translation invariance -/

/-- C10: `compute_status` depends only on the difference between the two
clock readings: shifting both by the same amount leaves the result unchanged.
-/
theorem C10_compute_status_translation (c n s d : Int) (fr : ℚ) :
    compute_status (c + d) (n + d) s fr = compute_status c n s fr := by
  simp only [compute_status, show n + d - (c + d) = n - c from by ring]

/-! # Helper lemmas: the batch loop of `list_children` -/

/-- Shape and content of a successful `list_children_go` run: one output item
per input id, in order, carrying that id as `resource_id`; and every id that
decodes to a payload of a different knowledge base yields exactly the
`kb_mismatch` error item (whose fields do not involve `compute_status`). -/
theorem list_children_go_spec (kb : List Char) (now : Int) (fr : ℚ) :
    ∀ (ids : List (List Char)) (out : List ChildItem),
      list_children_go kb now fr ids = .ok out →
      out.length = ids.length ∧
      (∀ i (hi : i < ids.length) (ho : i < out.length),
        (out.get ⟨i, ho⟩).resource_id = ids.get ⟨i, hi⟩) ∧
      (∀ i (hi : i < ids.length) (ho : i < out.length) (pl : TokenPayload),
        decode_resource_token (ids.get ⟨i, hi⟩) = .ok pl → pl.kb_id ≠ kb →
        out.get ⟨i, ho⟩ =
          ⟨ids.get ⟨i, hi⟩, pl.rp, .error, now, some "kb_mismatch".toList⟩) := by
  intro ids
  induction ids with
  | nil =>
    intro out h
    simp only [list_children_go] at h
    cases h
    exact ⟨rfl, fun i hi ho => absurd hi (Nat.not_lt_zero i),
      fun i hi ho pl hd hne => absurd hi (Nat.not_lt_zero i)⟩
  | cons tok rest ih =>
    intro out h
    simp only [list_children_go] at h
    have main : ∀ (item : ChildItem) (out' : List ChildItem),
        list_children_go kb now fr rest = .ok out' → out = item :: out' →
        item.resource_id = tok →
        (∀ pl : TokenPayload, decode_resource_token tok = .ok pl → pl.kb_id ≠ kb →
          item = ⟨tok, pl.rp, .error, now, some "kb_mismatch".toList⟩) →
        out.length = (tok :: rest).length ∧
        (∀ i (hi : i < (tok :: rest).length) (ho : i < out.length),
          (out.get ⟨i, ho⟩).resource_id = (tok :: rest).get ⟨i, hi⟩) ∧
        (∀ i (hi : i < (tok :: rest).length) (ho : i < out.length) (pl : TokenPayload),
          decode_resource_token ((tok :: rest).get ⟨i, hi⟩) = .ok pl → pl.kb_id ≠ kb →
          out.get ⟨i, ho⟩ =
            ⟨(tok :: rest).get ⟨i, hi⟩, pl.rp, .error, now, some "kb_mismatch".toList⟩) := by
      intro item out' hgo hout hid hmis
      obtain ⟨ihlen, ihid, ihkb⟩ := ih out' hgo
      subst hout
      refine ⟨by simp [ihlen], ?_, ?_⟩
      · intro i hi ho
        cases i with
        | zero => simpa using hid
        | succ j => simpa using ihid j (by simpa using hi) (by simpa using ho)
      · intro i hi ho pl hdi hne
        cases i with
        | zero =>
          have hd0 : decode_resource_token tok = .ok pl := by simpa using hdi
          simpa using hmis pl hd0 hne
        | succ j =>
          simpa using ihkb j (by simpa using hi) (by simpa using ho) pl (by simpa using hdi) hne
    rcases hd : decode_resource_token tok with pl | _ | _ | _ <;> simp only [hd] at h
    · by_cases hkb : pl.kb_id ≠ kb
      · rw [if_pos hkb] at h
        rcases hgo : list_children_go kb now fr rest with e | out' <;> simp only [hgo] at h <;>
          simp only [Except.map] at h
        · cases h
        · cases h
          exact main _ _ hgo rfl rfl (fun pl2 hd2 _ => by
            rw [hd] at hd2
            cases hd2
            rfl)
      · rw [if_neg hkb] at h
        rcases hcs : compute_status pl.ca_ms now pl.salt fr with e | st <;> simp only [hcs] at h
        · cases h
        · rcases hgo : list_children_go kb now fr rest with e | out' <;> simp only [hgo] at h <;>
            simp only [Except.map] at h
          · cases h
          · cases h
            exact main _ _ hgo rfl rfl (fun pl2 hd2 hne2 => by
              rw [hd] at hd2
              cases hd2
              exact absurd hne2 hkb)
    · rcases hgo : list_children_go kb now fr rest with e | out' <;> simp only [hgo] at h <;>
        simp only [Except.map] at h
      · cases h
      · cases h
        exact main _ _ hgo rfl rfl (fun pl2 hd2 _ => by rw [hd] at hd2; cases hd2)
    · rcases hgo : list_children_go kb now fr rest with e | out' <;> simp only [hgo] at h <;>
        simp only [Except.map] at h
      · cases h
      · cases h
        exact main _ _ hgo rfl rfl (fun pl2 hd2 _ => by rw [hd] at hd2; cases hd2)
    · cases h

/-- Evaluation: decoding the knowledge-base-`"a"` sample token. -/
theorem decode_kbAToken :
    decode_resource_token kbAToken = .ok ⟨1, "a".toList, "x".toList, 0, 0⟩ := by decide

/-- Evaluation: a batch query against the wrong knowledge base returns the
`kb_mismatch` item (no status computation happens on this path). -/
theorem list_children_mismatch_eval :
    list_children "b".toList [kbAToken] 5 1
      = .ok [⟨kbAToken, "x".toList, .error, 5, some "kb_mismatch".toList⟩] := by decide

/-- Evaluation: a batch query against the right knowledge base computes the
status. -/
theorem list_children_ok_eval :
    list_children "a".toList [kbAToken] 1000 1
      = .ok [⟨kbAToken, "x".toList, .error, 1000, none⟩] := by
  unfold list_children
  rw [if_neg (by simp)]
  simp only [list_children_go, decode_kbAToken]
  rw [if_neg (by decide)]
  simp only [compute_status_term_salt0 1000 (by decide), Except.map]

/-! # C8: kb mismatch yields an error item, not a status -/

/-- C8: in a successful batch query, an id that decodes to a payload whose
`kb_id` differs from the requested knowledge base yields exactly the
`kb_mismatch` item: `status` is `error`, `error_code` is `kb_mismatch`, and
the item is built without any call to `compute_status` (its fields do not
depend on the payload's creation time or salt, nor on the failure rate). -/
theorem C8_list_children_kb_mismatch (kb : List Char) (ids : List (List Char)) (now : Int)
    (fr : ℚ) (out : List ChildItem) (hne : ids ≠ [])
    (h : list_children kb ids now fr = .ok out)
    (i : Nat) (hi : i < ids.length) (ho : i < out.length) (pl : TokenPayload)
    (hd : decode_resource_token (ids.get ⟨i, hi⟩) = .ok pl) (hkb : pl.kb_id ≠ kb) :
    out.get ⟨i, ho⟩ = ⟨ids.get ⟨i, hi⟩, pl.rp, .error, now, some "kb_mismatch".toList⟩ := by
  unfold list_children at h
  rw [if_neg hne] at h
  exact (list_children_go_spec kb now fr ids out h).2.2 i hi ho pl hd hkb

theorem C8_list_children_kb_mismatch_witness :
    ([kbAToken] ≠ ([] : List (List Char)) ∧
      list_children "b".toList [kbAToken] 5 1
        = .ok [⟨kbAToken, "x".toList, .error, 5, some "kb_mismatch".toList⟩] ∧
      decode_resource_token kbAToken = .ok ⟨1, "a".toList, "x".toList, 0, 0⟩ ∧
      "a".toList ≠ "b".toList) ∧
    ([(⟨kbAToken, "x".toList, .error, 5, some "kb_mismatch".toList⟩ : ChildItem)].get
        ⟨0, by decide⟩
      = ⟨[kbAToken].get ⟨0, by decide⟩, "x".toList, .error, 5, some "kb_mismatch".toList⟩) :=
  ⟨⟨by decide, list_children_mismatch_eval, decode_kbAToken, by decide⟩,
   C8_list_children_kb_mismatch "b".toList [kbAToken] 5 1 _ (by decide)
     list_children_mismatch_eval 0 (by decide) (by decide) ⟨1, "a".toList, "x".toList, 0, 0⟩
     decode_kbAToken (by decide)⟩

/-! # C9: one item per id, in order, echoing the id -/

/-- C9: whenever `list_children` returns a result, it has exactly one item per
input id, in input order, and the i-th item's `resource_id` is the i-th id,
whether the item carries a computed status or a per-item error. -/
theorem C9_list_children_order (kb : List Char) (ids : List (List Char)) (now : Int)
    (fr : ℚ) (out : List ChildItem) (hne : ids ≠ [])
    (h : list_children kb ids now fr = .ok out) :
    out.length = ids.length ∧
    ∀ i (hi : i < ids.length) (ho : i < out.length),
      (out.get ⟨i, ho⟩).resource_id = ids.get ⟨i, hi⟩ := by
  unfold list_children at h
  rw [if_neg hne] at h
  obtain ⟨h1, h2, _⟩ := list_children_go_spec kb now fr ids out h
  exact ⟨h1, h2⟩

theorem C9_list_children_order_witness :
    ([kbAToken] ≠ ([] : List (List Char)) ∧
      list_children "a".toList [kbAToken] 1000 1
        = .ok [⟨kbAToken, "x".toList, .error, 1000, none⟩]) ∧
    ([(⟨kbAToken, "x".toList, .error, 1000, none⟩ : ChildItem)].length = [kbAToken].length ∧
      ∀ i (hi : i < [kbAToken].length)
        (ho : i < [(⟨kbAToken, "x".toList, .error, 1000, none⟩ : ChildItem)].length),
        ([(⟨kbAToken, "x".toList, .error, 1000, none⟩ : ChildItem)].get ⟨i, ho⟩).resource_id
          = [kbAToken].get ⟨i, hi⟩) :=
  ⟨⟨by decide, list_children_ok_eval⟩,
   C9_list_children_order "a".toList [kbAToken] 1000 1 _ (by decide) list_children_ok_eval⟩

/-! # C2: decode failures are not always contained -/

/-- C2, at the failing input: truncating a token's base64 does fail with
`MalformedToken`, but the schema-valid token whose `rp` field is `"/"`
(`slashRpToken`) makes `decode_resource_token` raise the bare `ValueError`
from `normalize_resource_path` — not a `TokenError` — so a batch containing it
aborts as a whole instead of reporting a per-item error, and the other ids in
the batch never resolve. -/
theorem C2_decode_uncaught_fault :
    decode_resource_token (kbAToken.dropLast) = .malformedToken ∧
    decode_resource_token slashRpToken = .uncaught ∧
    list_children "k".toList [slashRpToken, kbAToken] 0 1 = .error .uncaught := by
  refine ⟨by decide, by decide, by decide⟩

/-! # C4: the version check is dead code -/

/-- C4 counterexample: the concrete token whose payload JSON is
`("ver" : 2, "kb_id" : "k", "rp" : "x", "ca_ms" : 0, "salt" : 0)` decodes to
`MalformedToken`, not `UnsupportedTokenVersion`: pydantic's `ge=1, le=1`
range check on `ver` rejects the payload before the explicit version
comparison is reached. -/
theorem C4_ver_two_is_malformed :
    json_loads ((utf8Decode ((b64decodePy verTwoToken).getD [])).getD [])
      = some (.jobj [("ver".toList, .jnum 2), ("kb_id".toList, .jstr "k".toList),
        ("rp".toList, .jstr "x".toList), ("ca_ms".toList, .jnum 0),
        ("salt".toList, .jnum 0)]) ∧
    decode_resource_token verTwoToken = .malformedToken ∧
    decode_resource_token verTwoToken ≠ .unsupportedTokenVersion :=
  ⟨by rfl, by decide, by decide⟩

/-- C4 as amended: a token that reaches payload validation as a JSON object
whose `ver` member is an integer different from 1 fails with
`MalformedToken` (the schema range check fires; the explicit
`UnsupportedTokenVersion` branch is unreachable). -/
theorem C4_version_ne_one_malformed (token : List Char) (raw : List Nat) (txt : List Char)
    (kvs : List (List Char × Json)) (v : Int)
    (h1 : b64decodePy token = some raw) (h2 : utf8Decode raw = some txt)
    (h3 : json_loads txt = some (.jobj kvs))
    (h4 : lookupLast kvs "ver".toList = some (.jnum v)) (h5 : v ≠ 1) :
    decode_resource_token token = .malformedToken := by
  have hval : validateTokenPayload kvs = none := by
    unfold validateTokenPayload
    rw [h4, show getInt? (some (.jnum v)) = some v from rfl]
    cases hkb : getStr? (lookupLast kvs "kb_id".toList) <;>
      cases hrp : getStr? (lookupLast kvs "rp".toList) <;>
      cases hca : getInt? (lookupLast kvs "ca_ms".toList) <;>
      cases hsalt : getInt? (lookupLast kvs "salt".toList) <;>
      first
      | rfl
      | exact if_neg (by omega)
  simp only [decode_resource_token, h1, h2, h3, hval]

theorem C4_version_ne_one_malformed_witness :
    b64decodePy verTwoToken
      = some (utf8Encode (dumpPayloadJson ⟨2, "k".toList, "x".toList, 0, 0⟩)) ∧
    utf8Decode (utf8Encode (dumpPayloadJson ⟨2, "k".toList, "x".toList, 0, 0⟩))
      = some (dumpPayloadJson ⟨2, "k".toList, "x".toList, 0, 0⟩) ∧
    json_loads (dumpPayloadJson ⟨2, "k".toList, "x".toList, 0, 0⟩)
      = some (.jobj [("ver".toList, .jnum 2), ("kb_id".toList, .jstr "k".toList),
        ("rp".toList, .jstr "x".toList), ("ca_ms".toList, .jnum 0),
        ("salt".toList, .jnum 0)]) ∧
    (2 : Int) ≠ 1 ∧
    decode_resource_token verTwoToken = .malformedToken :=
  ⟨by decide, by decide, by rfl, by decide,
   C4_version_ne_one_malformed verTwoToken
     (utf8Encode (dumpPayloadJson ⟨2, "k".toList, "x".toList, 0, 0⟩))
     (dumpPayloadJson ⟨2, "k".toList, "x".toList, 0, 0⟩)
     [("ver".toList, .jnum 2), ("kb_id".toList, .jstr "k".toList),
       ("rp".toList, .jstr "x".toList), ("ca_ms".toList, .jnum 0), ("salt".toList, .jnum 0)]
     2 (by decide) (by decide) (by rfl) (by rfl) (by decide)⟩

/-! # Helper lemmas: base64 round trip -/

theorem b64Char_ok : ∀ n, n < 64 →
    b64Val (b64Char n) = some n ∧ isB64UrlChar (b64Char n) = true ∧
    (b64Char n).toNat < 128 ∧ b64Char n ≠ '=' := by decide

theorem b64Char_head (n : Nat) (h : n < 64) :
    (isB64UrlChar (b64Char n) || (b64Char n = '=')) = true ∧ (b64Char n).toNat < 128 := by
  obtain ⟨h1, h2, h3, h4⟩ := b64Char_ok n h
  exact ⟨by simp [h2], h3⟩

theorem b64encode_alphabet : ∀ (bs : List Nat), (∀ b ∈ bs, b < 256) →
    ∀ c ∈ b64encode bs, (isB64UrlChar c || c = '=') = true ∧ c.toNat < 128
  | [] => by simp [b64encode]
  | [a] => by
    intro hb c hc
    have ha : a < 256 := hb a (by simp)
    simp only [b64encode, List.mem_cons, List.mem_singleton, List.not_mem_nil, or_false] at hc
    rcases hc with rfl | rfl | rfl | rfl
    · exact b64Char_head _ (by omega)
    · exact b64Char_head _ (by omega)
    · exact ⟨by simp, by decide⟩
    · exact ⟨by simp, by decide⟩
  | [a, b] => by
    intro hb c hc
    have ha : a < 256 := hb a (by simp)
    have hbb : b < 256 := hb b (by simp)
    simp only [b64encode, List.mem_cons, List.mem_singleton, List.not_mem_nil, or_false] at hc
    rcases hc with rfl | rfl | rfl | rfl
    · exact b64Char_head _ (by omega)
    · exact b64Char_head _ (by omega)
    · exact b64Char_head _ (by omega)
    · exact ⟨by simp, by decide⟩
  | a :: b :: c :: rest => by
    intro hb x hx
    have ha : a < 256 := hb a (by simp)
    have hbb : b < 256 := hb b (by simp)
    have hcc : c < 256 := hb c (by simp)
    simp only [b64encode, List.mem_cons] at hx
    rcases hx with rfl | rfl | rfl | rfl | hx
    · exact b64Char_head _ (by omega)
    · exact b64Char_head _ (by omega)
    · exact b64Char_head _ (by omega)
    · exact b64Char_head _ (by omega)
    · exact b64encode_alphabet rest (fun y hy => hb y (by simp [hy])) x hx

theorem b64DecodeGroups_encode : ∀ (bs : List Nat), (∀ b ∈ bs, b < 256) →
    b64DecodeGroups (b64encode bs) = some bs
  | [] => fun _ => rfl
  | [a] => by
    intro hb
    have ha : a < 256 := hb a (by simp)
    simp only [b64encode, b64DecodeGroups]
    rw [if_pos (by simp), (b64Char_ok _ (by omega)).1, (b64Char_ok _ (by omega)).1]
    have h1 : a / 4 * 4 + a % 4 * 16 / 16 = a := by omega
    show some [a / 4 * 4 + a % 4 * 16 / 16] = some [a]
    rw [h1]
  | [a, b] => by
    intro hb
    have ha : a < 256 := hb a (by simp)
    have hbb : b < 256 := hb b (by simp)
    simp only [b64encode, b64DecodeGroups]
    rw [if_neg (by rintro ⟨h1, -⟩; exact (b64Char_ok _ (by omega)).2.2.2 h1),
      if_pos (by simp), (b64Char_ok _ (by omega)).1, (b64Char_ok _ (by omega)).1,
      (b64Char_ok _ (by omega)).1]
    have h1 : a / 4 * 4 + (a % 4 * 16 + b / 16) / 16 = a := by omega
    have h2 : (a % 4 * 16 + b / 16) % 16 * 16 + b % 16 * 4 / 4 = b := by omega
    show some [a / 4 * 4 + (a % 4 * 16 + b / 16) / 16,
      (a % 4 * 16 + b / 16) % 16 * 16 + b % 16 * 4 / 4] = some [a, b]
    rw [h1, h2]
  | a :: b :: c :: rest => by
    intro hb
    have ha : a < 256 := hb a (by simp)
    have hbb : b < 256 := hb b (by simp)
    have hcc : c < 256 := hb c (by simp)
    simp only [b64encode, b64DecodeGroups]
    rw [if_neg (by rintro ⟨h1, -⟩; exact (b64Char_ok _ (by omega)).2.2.2 h1),
      if_neg (by rintro ⟨h1, -⟩; exact (b64Char_ok _ (by omega)).2.2.2 h1),
      (b64Char_ok _ (by omega)).1, (b64Char_ok _ (by omega)).1,
      (b64Char_ok _ (by omega)).1, (b64Char_ok _ (by omega)).1,
      b64DecodeGroups_encode rest (fun y hy => hb y (by simp [hy]))]
    have h1 : a / 4 * 4 + (a % 4 * 16 + b / 16) / 16 = a := by omega
    have h2 : (a % 4 * 16 + b / 16) % 16 * 16 + (b % 16 * 4 + c / 64) / 4 = b := by omega
    have h3 : (b % 16 * 4 + c / 64) % 4 * 64 + c % 64 = c := by omega
    show some ((a / 4 * 4 + (a % 4 * 16 + b / 16) / 16) ::
      ((a % 4 * 16 + b / 16) % 16 * 16 + (b % 16 * 4 + c / 64) / 4) ::
      ((b % 16 * 4 + c / 64) % 4 * 64 + c % 64) :: rest) = some (a :: b :: c :: rest)
    rw [h1, h2, h3]

/-- Round trip: Python's urlsafe base64 decode inverts its encode. -/
theorem b64decodePy_encode (bs : List Nat) (h : ∀ b ∈ bs, b < 256) :
    b64decodePy (b64encode bs) = some bs := by
  unfold b64decodePy
  rw [if_pos (List.all_eq_true.2 (fun c hc => by
      simpa using (b64encode_alphabet bs h c hc).2)),
    List.filter_eq_self.2 (fun c hc => (b64encode_alphabet bs h c hc).1)]
  exact b64DecodeGroups_encode bs h

/-! # Helper lemmas: UTF-8 round trip -/

theorem utf8Decode_encodeChar (c : Char) (tail : List Nat) :
    utf8Decode (utf8EncodeChar c ++ tail) = (utf8Decode tail).map (c :: ·) := by
  have hv : c.toNat < 0xd800 ∨ (0xe000 ≤ c.toNat ∧ c.toNat < 0x110000) := c.valid
  have hofn : Char.ofNat c.toNat = c := Char.ofNat_toNat c
  by_cases h1 : c.toNat < 0x80
  · simp only [utf8EncodeChar, if_pos h1, List.cons_append, List.nil_append]
    rw [utf8Decode.eq_def]
    simp only
    rw [if_pos h1]
    simp only [hofn]
  by_cases h2 : c.toNat < 0x800
  · simp only [utf8EncodeChar, if_neg h1, if_pos h2, List.cons_append, List.nil_append]
    rw [utf8Decode.eq_def]
    simp only
    rw [if_neg (by omega), if_neg (by omega), if_pos (by omega),
      if_pos (by simp only [isCont, Bool.and_eq_true, decide_eq_true_eq]; omega)]
    have harith : (0xc0 + c.toNat / 64 - 0xc0) * 64 + (0x80 + c.toNat % 64 - 0x80)
        = c.toNat := by omega
    simp only [harith, hofn]
  by_cases h3 : c.toNat < 0x10000
  · simp only [utf8EncodeChar, if_neg h1, if_neg h2, if_pos h3, List.cons_append,
      List.nil_append]
    rw [utf8Decode.eq_def]
    simp only
    rw [if_neg (by omega), if_neg (by omega), if_neg (by omega), if_pos (by omega)]
    have harith : (0xe0 + c.toNat / 4096 - 0xe0) * 4096 +
        (0x80 + c.toNat / 64 % 64 - 0x80) * 64 + (0x80 + c.toNat % 64 - 0x80)
        = c.toNat := by omega
    rw [if_pos]
    · simp only [harith, hofn]
    · refine ⟨by simp only [isCont, Bool.and_eq_true, decide_eq_true_eq]; omega,
        by simp only [isCont, Bool.and_eq_true, decide_eq_true_eq]; omega, ?_, ?_⟩
      · omega
      · omega
  · simp only [utf8EncodeChar, if_neg h1, if_neg h2, if_neg h3, List.cons_append,
      List.nil_append]
    have hlt : c.toNat < 0x110000 := by omega
    rw [utf8Decode.eq_def]
    simp only
    rw [if_neg (by omega), if_neg (by omega), if_neg (by omega), if_neg (by omega),
      if_pos (by omega)]
    have harith : (0xf0 + c.toNat / 262144 - 0xf0) * 262144 +
        (0x80 + c.toNat / 4096 % 64 - 0x80) * 4096 +
        (0x80 + c.toNat / 64 % 64 - 0x80) * 64 + (0x80 + c.toNat % 64 - 0x80)
        = c.toNat := by omega
    rw [if_pos]
    · simp only [harith, hofn]
    · refine ⟨by simp only [isCont, Bool.and_eq_true, decide_eq_true_eq]; omega,
        by simp only [isCont, Bool.and_eq_true, decide_eq_true_eq]; omega,
        by simp only [isCont, Bool.and_eq_true, decide_eq_true_eq]; omega, ?_, ?_⟩
      · omega
      · omega

theorem utf8Decode_encode_append (s : List Char) (tail : List Nat) :
    utf8Decode (utf8Encode s ++ tail) = (utf8Decode tail).map (s ++ ·) := by
  induction s with
  | nil =>
    simp only [utf8Encode, List.map_nil, List.flatten_nil, List.nil_append]
    cases utf8Decode tail <;> simp
  | cons c s' ih =>
    simp only [utf8Encode] at ih ⊢
    rw [List.map_cons, List.flatten_cons, List.append_assoc, utf8Decode_encodeChar, ih]
    cases utf8Decode tail <;> simp

/-- Round trip: strict UTF-8 decoding inverts encoding. -/
theorem utf8Decode_encode (s : List Char) : utf8Decode (utf8Encode s) = some s := by
  have h := utf8Decode_encode_append s []
  rw [List.append_nil] at h
  rw [h]
  simp [show utf8Decode [] = some [] from rfl]

/-- Every byte of a UTF-8 encoding is a byte. -/
theorem utf8Encode_lt (s : List Char) : ∀ b ∈ utf8Encode s, b < 256 := by
  intro b hb
  simp only [utf8Encode, List.mem_flatten, List.mem_map] at hb
  obtain ⟨bs, ⟨c, hc, rfl⟩, hbbs⟩ := hb
  have hv : c.toNat < 0xd800 ∨ (0xe000 ≤ c.toNat ∧ c.toNat < 0x110000) := c.valid
  simp only [utf8EncodeChar] at hbbs
  split_ifs at hbbs <;> simp only [List.mem_cons, List.not_mem_nil, or_false] at hbbs <;>
    rcases hbbs with rfl | rfl | rfl | rfl <;> omega

/-! # Helper lemmas: JSON string literals -/

theorem hexVal_hexDigit : ∀ m, m < 16 → hexVal (hexDigit m) = some m := by decide

theorem parseJStr_dump : ∀ (s rest : List Char),
    parseJStr ((s.map jsonEscapeChar).flatten ++ '"' :: rest) = some (s, rest)
  | [], rest => by
    simp only [List.map_nil, List.flatten_nil, List.nil_append]
    rw [parseJStr.eq_def]
    simp only [reduceIte, Char.reduceEq]
  | c :: s', rest => by
    have ih := parseJStr_dump s' rest
    have hofn : Char.ofNat c.toNat = c := Char.ofNat_toNat c
    simp only [List.map_cons, List.flatten_cons, List.append_assoc]
    by_cases hq : c = '"'
    · subst hq
      simp only [jsonEscapeChar, if_pos rfl, List.cons_append, List.nil_append]
      rw [parseJStr.eq_def]
      simp only [List.cons_append, List.nil_append, reduceIte, Char.reduceEq, ih, Option.map_some']
    by_cases hb : c = '\\'
    · subst hb
      simp only [jsonEscapeChar, if_neg (by decide : ¬ ('\\' = '"')), if_pos rfl,
        List.cons_append, List.nil_append]
      rw [parseJStr.eq_def]
      simp only [List.cons_append, List.nil_append, reduceIte, Char.reduceEq, ih, Option.map_some']
    by_cases hctl : c.toNat < 0x20
    · by_cases h8 : c.toNat = 8
      · simp only [jsonEscapeChar, if_neg hq, if_neg hb, if_pos h8, List.cons_append,
          List.nil_append]
        rw [parseJStr.eq_def]
        simp only [List.cons_append, List.nil_append, reduceIte, Char.reduceEq, ih, Option.map_some']
        rw [show Char.ofNat 8 = c from by rw [h8] at hofn; exact hofn]
      by_cases h9 : c.toNat = 9
      · simp only [jsonEscapeChar, if_neg hq, if_neg hb, if_neg h8, if_pos h9,
          List.cons_append, List.nil_append]
        rw [parseJStr.eq_def]
        simp only [List.cons_append, List.nil_append, reduceIte, Char.reduceEq, ih, Option.map_some']
        rw [show '\t' = c from by rw [h9] at hofn; exact hofn]
      by_cases h10 : c.toNat = 10
      · simp only [jsonEscapeChar, if_neg hq, if_neg hb, if_neg h8, if_neg h9, if_pos h10,
          List.cons_append, List.nil_append]
        rw [parseJStr.eq_def]
        simp only [List.cons_append, List.nil_append, reduceIte, Char.reduceEq, ih, Option.map_some']
        rw [show '\n' = c from by rw [h10] at hofn; exact hofn]
      by_cases h12 : c.toNat = 12
      · simp only [jsonEscapeChar, if_neg hq, if_neg hb, if_neg h8, if_neg h9, if_neg h10,
          if_pos h12, List.cons_append, List.nil_append]
        rw [parseJStr.eq_def]
        simp only [List.cons_append, List.nil_append, reduceIte, Char.reduceEq, ih, Option.map_some']
        rw [show Char.ofNat 12 = c from by rw [h12] at hofn; exact hofn]
      by_cases h13 : c.toNat = 13
      · simp only [jsonEscapeChar, if_neg hq, if_neg hb, if_neg h8, if_neg h9, if_neg h10,
          if_neg h12, if_pos h13, List.cons_append, List.nil_append]
        rw [parseJStr.eq_def]
        simp only [List.cons_append, List.nil_append, reduceIte, Char.reduceEq, ih, Option.map_some']
        rw [show Char.ofNat 13 = c from by rw [h13] at hofn; exact hofn]
      · simp only [jsonEscapeChar, if_neg hq, if_neg hb, if_neg h8, if_neg h9, if_neg h10,
          if_neg h12, if_neg h13, if_pos hctl, List.cons_append, List.nil_append]
        rw [parseJStr.eq_def]
        simp only [List.cons_append, List.nil_append, reduceIte, Char.reduceEq,
          show hexVal '0' = some 0 from by decide,
          hexVal_hexDigit (c.toNat / 16) (by omega), hexVal_hexDigit (c.toNat % 16) (by omega)]
        rw [if_neg (by omega), ih]
        simp only [Option.map_some']
        rw [show Char.ofNat (0 * 4096 + 0 * 256 + c.toNat / 16 * 16 + c.toNat % 16) = c from by
          rw [show 0 * 4096 + 0 * 256 + c.toNat / 16 * 16 + c.toNat % 16 = c.toNat from by omega,
            hofn]]
    · simp only [jsonEscapeChar, if_neg hq, if_neg hb,
        if_neg (show ¬ c.toNat = 8 by omega), if_neg (show ¬ c.toNat = 9 by omega),
        if_neg (show ¬ c.toNat = 10 by omega), if_neg (show ¬ c.toNat = 12 by omega),
        if_neg (show ¬ c.toNat = 13 by omega), if_neg hctl,
        List.cons_append, List.nil_append]
      rw [parseJStr.eq_def]
      simp only
      rw [if_neg hq, if_neg hb, if_neg hctl, ih]
      simp only [Option.map_some']

/-! # Helper lemmas: characters and decimal digits -/

theorem charEq_iff_toNat (a b : Char) : a = b ↔ a.toNat = b.toNat :=
  ⟨fun h => by rw [h], fun h => Char.ext (UInt32.ext h)⟩

theorem charLe_iff_toNat (a b : Char) : a ≤ b ↔ a.toNat ≤ b.toNat := by
  rw [Char.le_def]
  exact Iff.rfl

theorem charToNat_ofNat {n : Nat} (h : n.isValidChar) : (Char.ofNat n).toNat = n := by
  simp [Char.ofNat, h, Char.ofNatAux, Char.toNat, UInt32.toNat, BitVec.toNat_ofNatLt]

/-- The value of a list of decimal digit characters. -/
theorem digitsVal_foldl : ∀ (l : List Char) (a : Nat),
    l.foldl (fun a c => a * 10 + (c.toNat - 48)) a
      = a * 10 ^ l.length + l.foldl (fun a c => a * 10 + (c.toNat - 48)) 0
  | [], a => by simp
  | c :: t, a => by
    simp only [List.foldl_cons, List.length_cons]
    rw [digitsVal_foldl t (a * 10 + (c.toNat - 48)), digitsVal_foldl t (0 * 10 + (c.toNat - 48))]
    ring

theorem parseDigitsAcc_digits : ∀ (l : List Char), (∀ c ∈ l, '0' ≤ c ∧ c ≤ '9') →
    ∀ (acc : Nat) (rest : List Char),
    parseDigitsAcc acc (l ++ rest)
      = parseDigitsAcc (l.foldl (fun a c => a * 10 + (c.toNat - 48)) acc) rest
  | [], _, acc, rest => rfl
  | c :: t, hd, acc, rest => by
    simp only [List.cons_append, List.foldl_cons]
    rw [parseDigitsAcc.eq_def]
    simp only
    rw [if_pos (hd c (by simp))]
    exact parseDigitsAcc_digits t (fun x hx => hd x (by simp [hx])) _ rest

theorem parseDigitsAcc_stop (acc : Nat) (rest : List Char)
    (h : rest = [] ∨ ∃ d t, rest = d :: t ∧ ¬ ('0' ≤ d ∧ d ≤ '9')) :
    parseDigitsAcc acc rest = (acc, rest) := by
  rcases h with rfl | ⟨d, t, rfl, hd⟩
  · rfl
  · rw [parseDigitsAcc.eq_def]
    simp only
    rw [if_neg hd]

theorem digitChar_bounds (n : Nat) (h : n < 10) :
    '0' ≤ Char.ofNat (48 + n) ∧ Char.ofNat (48 + n) ≤ '9' ∧
    (Char.ofNat (48 + n)).toNat = 48 + n := by
  have hv : (48 + n).isValidChar := Or.inl (by omega)
  have ht := charToNat_ofNat hv
  refine ⟨?_, ?_, ht⟩
  · rw [charLe_iff_toNat, ht, show ('0').toNat = 48 from rfl]
    omega
  · rw [charLe_iff_toNat, ht, show ('9').toNat = 57 from rfl]
    omega

theorem natDigitsFuel_spec : ∀ (f n : Nat), n < 10 ^ (f + 1) →
    natDigitsFuel (f + 1) n ≠ [] ∧
    (∀ c ∈ natDigitsFuel (f + 1) n, '0' ≤ c ∧ c ≤ '9') ∧
    (natDigitsFuel (f + 1) n).foldl (fun a c => a * 10 + (c.toNat - 48)) 0 = n
  | 0, n, hn => by
    have h10 : n < 10 := by simpa using hn
    simp only [natDigitsFuel, if_pos h10]
    obtain ⟨hb1, hb2, hb3⟩ := digitChar_bounds n h10
    refine ⟨by simp, ?_, ?_⟩
    · intro c hc
      simp only [List.mem_singleton] at hc
      subst hc
      exact ⟨hb1, hb2⟩
    · simp [hb3]
  | f + 1, n, hn => by
    by_cases h10 : n < 10
    · simp only [natDigitsFuel, if_pos h10]
      obtain ⟨hb1, hb2, hb3⟩ := digitChar_bounds n h10
      refine ⟨by simp, ?_, ?_⟩
      · intro c hc
        simp only [List.mem_singleton] at hc
        subst hc
        exact ⟨hb1, hb2⟩
      · simp [hb3]
    · rw [show natDigitsFuel (f + 1 + 1) n
          = (if n < 10 then [Char.ofNat (48 + n)]
            else natDigitsFuel (f + 1) (n / 10) ++ [Char.ofNat (48 + n % 10)]) from rfl,
        if_neg h10]
      have hrec : n / 10 < 10 ^ (f + 1) := by
        rw [Nat.div_lt_iff_lt_mul (by omega)]
        calc n < 10 ^ (f + 1 + 1) := hn
        _ = 10 ^ (f + 1) * 10 := by ring
      obtain ⟨ih1, ih2, ih3⟩ := natDigitsFuel_spec f (n / 10) hrec
      obtain ⟨hb1, hb2, hb3⟩ := digitChar_bounds (n % 10) (by omega)
      refine ⟨by simp, ?_, ?_⟩
      · intro c hc
        rcases List.mem_append.1 hc with hc | hc
        · exact ih2 c hc
        · simp only [List.mem_singleton] at hc
          subst hc
          exact ⟨hb1, hb2⟩
      · rw [List.foldl_append, List.foldl_cons, List.foldl_nil, ih3, hb3]
        omega

theorem natDigits_spec (n : Nat) :
    natDigits n ≠ [] ∧ (∀ c ∈ natDigits n, '0' ≤ c ∧ c ≤ '9') ∧
    (natDigits n).foldl (fun a c => a * 10 + (c.toNat - 48)) 0 = n := by
  have h : n < 10 ^ (n + 1) := by
    calc n < 2 ^ n := Nat.lt_two_pow n
    _ ≤ 10 ^ n := Nat.pow_le_pow_left (by omega) n
    _ ≤ 10 ^ (n + 1) := Nat.pow_le_pow_right (by omega) (by omega)
  exact natDigitsFuel_spec n n h

/-! # Helper lemmas: JSON integers and scalar values -/

theorem parseJNat_natDigits (n : Nat) (rest : List Char) (hb : numBoundary rest) :
    parseJNat (natDigits n ++ rest) = some (n, rest) := by
  obtain ⟨hne, hdig, hval⟩ := natDigits_spec n
  obtain ⟨c0, t, hct⟩ := List.exists_cons_of_ne_nil hne
  have hd0 : '0' ≤ c0 ∧ c0 ≤ '9' := hdig c0 (by rw [hct]; simp)
  have hstop : rest = [] ∨ ∃ d t2, rest = d :: t2 ∧ ¬ ('0' ≤ d ∧ d ≤ '9') := by
    cases rest with
    | nil => exact Or.inl rfl
    | cons d t2 => exact Or.inr ⟨d, t2, rfl, hb.1⟩
  rw [hct, List.cons_append, parseJNat.eq_def]
  simp only
  rw [if_pos hd0,
    parseDigitsAcc_digits t (fun x hx => hdig x (by rw [hct]; simp [hx])) _ rest,
    parseDigitsAcc_stop _ rest hstop]
  have hvt : t.foldl (fun a c => a * 10 + (c.toNat - 48)) (c0.toNat - 48) = n := by
    have := hval
    rw [hct, List.foldl_cons] at this
    simpa using this
  rw [hvt]
  cases rest with
  | nil => rfl
  | cons d t2 =>
    simp only
    rw [if_neg (by
      rintro (h | h | h) <;> [exact hb.2.1 h; exact hb.2.2.1 h; exact hb.2.2.2 h])]

theorem parseJInt_intDigits (i : Int) (rest : List Char) (hb : numBoundary rest) :
    parseJInt (intDigits i ++ rest) = some (i, rest) := by
  by_cases hneg : i < 0
  · simp only [intDigits, if_pos hneg, List.cons_append]
    rw [parseJInt.eq_def]
    simp only
    rw [if_pos trivial, parseJNat_natDigits i.natAbs rest hb]
    simp only [Option.map_some']
    congr 1
    have : (i.natAbs : Int) = -i := Int.ofNat_natAbs_of_nonpos (by omega)
    rw [Prod.ext_iff]
    exact ⟨by simp [this], rfl⟩
  · simp only [intDigits, if_neg hneg]
    obtain ⟨hne, hdig, -⟩ := natDigits_spec i.toNat
    obtain ⟨c0, t, hct⟩ := List.exists_cons_of_ne_nil hne
    have hd0 : '0' ≤ c0 ∧ c0 ≤ '9' := hdig c0 (by rw [hct]; simp)
    have hc0m : ¬ c0 = '-' := by
      rw [charEq_iff_toNat]
      have h1 := (charLe_iff_toNat '0' c0).1 hd0.1
      rw [show ('0').toNat = 48 from rfl] at h1
      rw [show ('-').toNat = 45 from rfl]
      omega
    rw [hct, List.cons_append, parseJInt.eq_def]
    simp only
    rw [if_neg hc0m, ← List.cons_append, ← hct, parseJNat_natDigits i.toNat rest hb]
    simp only [Option.map_some']
    congr 2
    omega

theorem jsonWs_of_ge (c : Char) (h : 34 ≤ c.toNat) : jsonWs c = false := by
  have hsp : ¬ c = ' ' := by rw [charEq_iff_toNat, show (' ').toNat = 32 from rfl]; omega
  have hta : ¬ c = '\t' := by rw [charEq_iff_toNat, show ('\t').toNat = 9 from rfl]; omega
  have hnl : ¬ c = '\n' := by rw [charEq_iff_toNat, show ('\n').toNat = 10 from rfl]; omega
  have hcr : ¬ c = '\r' := by
    rw [charEq_iff_toNat, show ('\r').toNat = 13 from rfl]; omega
  simp [jsonWs, hsp, hta, hnl, hcr]

theorem skipWs_cons_of_not_ws (c : Char) (l : List Char) (h : jsonWs c = false) :
    skipWs (c :: l) = c :: l := by
  simp [skipWs, List.dropWhile_cons, h]

theorem intDigits_head (i : Int) :
    ∃ c0 t, intDigits i = c0 :: t ∧ 45 ≤ c0.toNat ∧ c0.toNat ≤ 57 := by
  by_cases hneg : i < 0
  · refine ⟨'-', natDigits i.natAbs, by simp [intDigits, if_pos hneg], by decide, by decide⟩
  · obtain ⟨hne, hdig, -⟩ := natDigits_spec i.toNat
    obtain ⟨c0, t, hct⟩ := List.exists_cons_of_ne_nil hne
    have hd0 : '0' ≤ c0 ∧ c0 ≤ '9' := hdig c0 (by rw [hct]; simp)
    have h1 := (charLe_iff_toNat '0' c0).1 hd0.1
    have h2 := (charLe_iff_toNat c0 '9').1 hd0.2
    rw [show ('0').toNat = 48 from rfl] at h1
    rw [show ('9').toNat = 57 from rfl] at h2
    exact ⟨c0, t, by simp [intDigits, if_neg hneg, hct], by omega, by omega⟩

theorem charNe_of_toNat_ne (a b : Char) (h : a.toNat ≠ b.toNat) : ¬ a = b := by
  rw [charEq_iff_toNat]
  exact h

theorem parseJValue_scalar (f : Nat) (v : Json) (hv : IsScalar v) (rest : List Char)
    (hb : numBoundary rest) :
    parseJValue (f + 1) (dumpScalar v ++ rest) = some (v, rest) := by
  cases v with
  | jnull => exact absurd hv (by simp [IsScalar])
  | jbool b => exact absurd hv (by simp [IsScalar])
  | jarr xs => exact absurd hv (by simp [IsScalar])
  | jobj ms => exact absurd hv (by simp [IsScalar])
  | jstr s =>
    simp only [dumpScalar, dumpJsonStr, List.cons_append, List.append_assoc,
      List.singleton_append]
    rw [parseJValue.eq_def]
    simp only
    rw [skipWs_cons_of_not_ws _ _ (jsonWs_of_ge _ (by
      rw [show ('"').toNat = 34 from rfl]))]
    simp only [reduceIte, Char.reduceEq, List.nil_append, parseJStr_dump s rest,
      Option.map_some']
  | jnum i =>
    obtain ⟨c0, t, hct, h45, h57⟩ := intDigits_head i
    simp only [dumpScalar, hct, List.cons_append]
    rw [parseJValue.eq_def]
    simp only
    rw [skipWs_cons_of_not_ws _ _ (jsonWs_of_ge _ (by omega))]
    simp only
    rw [if_neg (charNe_of_toNat_ne _ _ (by rw [show ('"').toNat = 34 from rfl]; omega)),
      if_neg (charNe_of_toNat_ne _ _ (by rw [show ('{').toNat = 123 from rfl]; omega)),
      if_neg (charNe_of_toNat_ne _ _ (by rw [show ('[').toNat = 91 from rfl]; omega)),
      if_neg (charNe_of_toNat_ne _ _ (by rw [show ('t').toNat = 116 from rfl]; omega)),
      if_neg (charNe_of_toNat_ne _ _ (by rw [show ('f').toNat = 102 from rfl]; omega)),
      if_neg (charNe_of_toNat_ne _ _ (by rw [show ('n').toNat = 110 from rfl]; omega)),
      ← List.cons_append, ← hct, parseJInt_intDigits i rest hb]
    simp only [Option.map_some']

/-! # Helper lemmas: JSON object members -/

theorem parseJMembers_dump : ∀ (ms : List (List Char × Json)) (f : Nat) (rest : List Char),
    ms ≠ [] → (∀ p ∈ ms, IsScalar p.2) → 2 * ms.length ≤ f + 1 →
    parseJMembers (f + 1) (dumpMembers ms ++ rest) = some (ms, rest)
  | [], _, _, hne, _, _ => absurd rfl hne
  | [(k, v)], f, rest, _, hsc, hf => by
    have hscv : IsScalar v := hsc (k, v) (by simp)
    simp only [dumpMembers, dumpJsonStr, List.cons_append, List.append_assoc,
      List.singleton_append, List.nil_append]
    rw [parseJMembers.eq_def]
    simp only
    rw [skipWs_cons_of_not_ws '"' _ (jsonWs_of_ge _ (by rw [show ('"').toNat = 34 from rfl]))]
    simp only [reduceIte, Char.reduceEq]
    rw [parseJStr_dump]
    simp only
    rw [skipWs_cons_of_not_ws ':' _ (jsonWs_of_ge _ (by rw [show (':').toNat = 58 from rfl]; omega))]
    simp only [reduceIte, Char.reduceEq]
    obtain ⟨f2, rfl⟩ : ∃ f2, f = f2 + 1 := ⟨f - 1, by simp at hf; omega⟩
    rw [parseJValue_scalar f2 v hscv ('}' :: rest) ⟨by decide, by decide, by decide, by decide⟩]
    simp only
    rw [skipWs_cons_of_not_ws '}' _ (jsonWs_of_ge _ (by rw [show ('}').toNat = 125 from rfl]; omega))]
    simp only [reduceIte, Char.reduceEq]
  | (k, v) :: m2 :: tailms, f, rest, _, hsc, hf => by
    have hscv : IsScalar v := hsc (k, v) (by simp)
    simp only [dumpMembers, dumpJsonStr, List.cons_append, List.append_assoc,
      List.singleton_append, List.nil_append]
    rw [parseJMembers.eq_def]
    simp only
    rw [skipWs_cons_of_not_ws '"' _ (jsonWs_of_ge _ (by rw [show ('"').toNat = 34 from rfl]))]
    simp only [reduceIte, Char.reduceEq]
    rw [parseJStr_dump]
    simp only
    rw [skipWs_cons_of_not_ws ':' _ (jsonWs_of_ge _ (by rw [show (':').toNat = 58 from rfl]; omega))]
    simp only [reduceIte, Char.reduceEq]
    obtain ⟨f2, rfl⟩ : ∃ f2, f = f2 + 1 := ⟨f - 1, by simp at hf; omega⟩
    rw [parseJValue_scalar f2 v hscv (',' :: (dumpMembers (m2 :: tailms) ++ rest))
      ⟨by decide, by decide, by decide, by decide⟩]
    simp only
    rw [skipWs_cons_of_not_ws ',' _ (jsonWs_of_ge _ (by rw [show (',').toNat = 44 from rfl]; omega))]
    simp only [reduceIte, Char.reduceEq]
    rw [parseJMembers_dump (m2 :: tailms) f2 rest (by simp)
      (fun p hp => hsc p (by simp [hp])) (by simp at hf ⊢; omega)]
    simp only [Option.map_some']

/-! # Helper lemmas: parsing a serialized payload -/

theorem dumpPayloadJson_eq (pl : TokenPayload) :
    dumpPayloadJson pl = '{' :: dumpMembers (payloadMembers pl) := by
  simp [dumpPayloadJson, dumpMembers, payloadMembers, dumpScalar, List.append_assoc]

theorem dumpPayloadJson_length (pl : TokenPayload) :
    10 ≤ (dumpPayloadJson pl).length := by
  simp only [dumpPayloadJson, List.length_cons, List.length_append]
  omega

theorem json_loads_dumpPayload (pl : TokenPayload) :
    json_loads (dumpPayloadJson pl) = some (.jobj (payloadMembers pl)) := by
  have hlen := dumpPayloadJson_length pl
  obtain ⟨L, hL⟩ : ∃ L, (dumpPayloadJson pl).length = L + 1 :=
    ⟨(dumpPayloadJson pl).length - 1, by omega⟩
  have hL10 : 10 ≤ L + 1 := by omega
  unfold json_loads
  rw [hL, dumpPayloadJson_eq]
  rw [parseJValue.eq_def]
  simp only
  rw [skipWs_cons_of_not_ws '{' _ (jsonWs_of_ge _ (by rw [show ('{').toNat = 123 from rfl]; omega))]
  simp only [reduceIte, Char.reduceEq]
  have hmem : dumpMembers (payloadMembers pl)
      = dumpJsonStr "ver".toList ++ ':' ::
        (dumpScalar (.jnum pl.ver) ++ ',' :: dumpMembers (payloadMembers pl).tail) := by
    simp [dumpMembers, payloadMembers]
  obtain ⟨L2, rfl⟩ : ∃ L2, L = L2 + 1 := ⟨L - 1, by omega⟩
  rw [show skipWs (dumpMembers (payloadMembers pl))
      = dumpMembers (payloadMembers pl) from by
    rw [hmem]
    simp only [dumpJsonStr, List.cons_append]
    exact skipWs_cons_of_not_ws '"' _ (jsonWs_of_ge _ (by
      rw [show ('"').toNat = 34 from rfl]))]
  rw [show dumpMembers (payloadMembers pl)
      = '"' :: (("ver".toList.map jsonEscapeChar).flatten ++
        ('"' :: (':' :: (dumpScalar (.jnum pl.ver) ++
          ',' :: dumpMembers (payloadMembers pl).tail)))) from by
    rw [hmem]
    simp [dumpJsonStr, List.append_assoc]]
  simp only [reduceIte, Char.reduceEq]
  rw [show '"' :: (("ver".toList.map jsonEscapeChar).flatten ++
      ('"' :: (':' :: (dumpScalar (.jnum pl.ver) ++
        ',' :: dumpMembers (payloadMembers pl).tail))))
      = dumpMembers (payloadMembers pl) from by
    rw [hmem]
    simp [dumpJsonStr, List.append_assoc]]
  rw [show dumpMembers (payloadMembers pl)
      = dumpMembers (payloadMembers pl) ++ [] from by simp]
  rw [parseJMembers_dump (payloadMembers pl) (L2 + 1) [] (by simp [payloadMembers])
    (by simp [payloadMembers, IsScalar]) (by simp [payloadMembers]; omega)]
  simp [skipWs]

theorem validateTokenPayload_payloadMembers (pl : TokenPayload)
    (h1 : 1 ≤ pl.ver) (h2 : pl.ver ≤ 1) (h3 : 0 ≤ pl.salt)
    (h4 : pl.salt ≤ (UINT64_MAX : Int)) :
    validateTokenPayload (payloadMembers pl) = some pl := by
  have l1 : getInt? (lookupLast (payloadMembers pl) "ver".toList) = some pl.ver := rfl
  have l2 : getStr? (lookupLast (payloadMembers pl) "kb_id".toList) = some pl.kb_id := rfl
  have l3 : getStr? (lookupLast (payloadMembers pl) "rp".toList) = some pl.rp := rfl
  have l4 : getInt? (lookupLast (payloadMembers pl) "ca_ms".toList) = some pl.ca_ms := rfl
  have l5 : getInt? (lookupLast (payloadMembers pl) "salt".toList) = some pl.salt := rfl
  unfold validateTokenPayload
  rw [l1, l2, l3, l4, l5]
  simp only
  rw [if_pos ⟨h1, h2, h3, h4⟩]

/-! # C1: the encode/decode round trip -/

/-- C1 counterexample: the path `"././x"` is accepted by
`normalize_resource_path` (yielding `"./x"`), but the token encoded from it is
rejected by `decode_resource_token` as `MalformedToken`: the re-normalization
check fails because normalization is not idempotent on it. -/
theorem C1_roundtrip_counterexample :
    normalize_resource_path "././x".toList = some "./x".toList ∧
    (encode_resource_token hashW "k".toList "././x".toList 0 0).isSome = true ∧
    decode_resource_token
        ((encode_resource_token hashW "k".toList "././x".toList 0 0).getD [])
      = .malformedToken :=
  ⟨by decide, by decide, by decide⟩

/-- C1 as amended: for every hash primitive, knowledge-base id, creation time
and seed, and every path whose normalized form is a fixed point of
normalization, decoding the encoded token succeeds and returns exactly the
original `kb_id`, the normalized path, the original `created_at_ms`, and the
salt `derive_salt seed kb_id (normalize path)`. -/
theorem C1_encode_decode_roundtrip (hash64 : List Nat → Nat) (kb_id path : List Char)
    (created_at_ms seed : Int) (rp tok : List Char)
    (hn : normalize_resource_path path = some rp)
    (hfix : normalize_resource_path rp = some rp)
    (htok : encode_resource_token hash64 kb_id path created_at_ms seed = some tok) :
    decode_resource_token tok
      = .ok ⟨1, kb_id, rp, created_at_ms, (derive_salt hash64 seed kb_id rp : Int)⟩ := by
  unfold encode_resource_token at htok
  rw [hn] at htok
  simp only [Option.map_some', Option.some.injEq] at htok
  have htok' : tok = b64encode (utf8Encode (dumpPayloadJson
      ⟨TOKEN_VERSION, kb_id, rp, created_at_ms,
        (derive_salt hash64 seed kb_id rp : Int)⟩)) := htok.symm
  subst htok'
  unfold decode_resource_token
  rw [b64decodePy_encode _ (utf8Encode_lt _)]
  simp only
  rw [utf8Decode_encode]
  simp only
  rw [json_loads_dumpPayload]
  simp only
  rw [validateTokenPayload_payloadMembers _ (by norm_num [TOKEN_VERSION])
      (by norm_num [TOKEN_VERSION]) (Int.natCast_nonneg _)
      (by
        have hm : derive_salt hash64 seed kb_id rp ≤ UINT64_MAX := by
          unfold derive_salt UINT64_MAX
          have := Nat.mod_lt (hash64 (utf8Encode (intDigits seed ++ '|' :: kb_id ++
            '|' :: rp))) (show 0 < 2 ^ 64 from by norm_num)
          omega
        show ((derive_salt hash64 seed kb_id rp : Nat) : Int) ≤ (UINT64_MAX : Int)
        exact_mod_cast hm)]
  simp only
  rw [if_neg (by simp [TOKEN_VERSION]), hfix]
  simp only
  rw [if_neg (by simp)]
  rfl

theorem C1_encode_decode_roundtrip_witness :
    normalize_resource_path "a/B.TXT".toList = some "a/B.txt".toList ∧
    normalize_resource_path "a/B.txt".toList = some "a/B.txt".toList ∧
    encode_resource_token hashW "kb_123".toList "a/B.TXT".toList 42 0
      = some ((encode_resource_token hashW "kb_123".toList "a/B.TXT".toList 42 0).getD []) ∧
    decode_resource_token
        ((encode_resource_token hashW "kb_123".toList "a/B.TXT".toList 42 0).getD [])
      = .ok ⟨1, "kb_123".toList, "a/B.txt".toList, 42,
          (derive_salt hashW 0 "kb_123".toList "a/B.txt".toList : Int)⟩ :=
  ⟨by decide, by decide, by decide,
   C1_encode_decode_roundtrip hashW "kb_123".toList "a/B.TXT".toList 42 0
     "a/B.txt".toList _ (by decide) (by decide) (by decide)⟩

/-! # Helper lemmas: path normalization -/

theorem lowerAscii_eq_or (c : Char) :
    lowerAscii c = c ∨
    (65 ≤ c.toNat ∧ c.toNat ≤ 90 ∧ (lowerAscii c).toNat = c.toNat + 32) := by
  unfold lowerAscii
  split_ifs with h
  · right
    simp only [Bool.and_eq_true, decide_eq_true_eq] at h
    have h1 := (charLe_iff_toNat 'A' c).1 h.1
    have h2 := (charLe_iff_toNat c 'Z').1 h.2
    rw [show ('A').toNat = 65 from rfl] at h1
    rw [show ('Z').toNat = 90 from rfl] at h2
    exact ⟨h1, h2, charToNat_ofNat (Or.inl (by omega))⟩
  · exact Or.inl rfl

theorem lowerAscii_eq_iff (c : Char) (d : Char) (hd : d.toNat < 65 ∨ 90 < d.toNat)
    (hd2 : d.toNat < 97 ∨ 122 < d.toNat) : lowerAscii c = d ↔ c = d := by
  rcases lowerAscii_eq_or c with h | ⟨h1, h2, h3⟩
  · rw [h]
  · constructor
    · intro he
      rw [charEq_iff_toNat] at he
      rw [h3] at he
      omega
    · intro he
      rw [he] at h1 h2
      omega

theorem lowerAscii_slash (c : Char) : lowerAscii c = '/' ↔ c = '/' :=
  lowerAscii_eq_iff c '/' (by left; decide) (by left; decide)

theorem lowerAscii_dot (c : Char) : lowerAscii c = '.' ↔ c = '.' :=
  lowerAscii_eq_iff c '.' (by left; decide) (by left; decide)

theorem lowerAscii_backslash (c : Char) : lowerAscii c = '\\' ↔ c = '\\' :=
  lowerAscii_eq_iff c '\\' (by right; decide) (by left; decide)

theorem lowerAscii_printable (c : Char) (h : isPrintableAscii c = true) :
    isPrintableAscii (lowerAscii c) = true := by
  simp only [isPrintableAscii, Bool.and_eq_true, decide_eq_true_eq] at h ⊢
  rcases lowerAscii_eq_or c with he | ⟨h1, h2, h3⟩
  · rw [he]
    exact h
  · rw [h3]
    omega

theorem lowerAscii_idem (c : Char) : lowerAscii (lowerAscii c) = lowerAscii c := by
  rcases lowerAscii_eq_or c with h | ⟨h1, h2, h3⟩
  · rw [h]
    rcases lowerAscii_eq_or c with h' | ⟨h1', h2', h3'⟩
    · exact h'
    · rw [h] at h3'
      omega
  · rcases lowerAscii_eq_or (lowerAscii c) with h' | ⟨h1', h2', h3'⟩
    · exact h'
    · rw [h3] at h1'
      omega

theorem mem_collapseSlashes : ∀ (l : List Char) (c : Char), c ∈ collapseSlashes l → c ∈ l
  | [], _, h => h
  | [_], _, h => h
  | a :: b :: rest, c, h => by
    simp only [collapseSlashes] at h
    split_ifs at h with hab
    · exact List.mem_cons_of_mem a (mem_collapseSlashes (b :: rest) c h)
    · rcases List.mem_cons.1 h with rfl | h2
      · simp
      · exact List.mem_cons_of_mem a (mem_collapseSlashes (b :: rest) c h2)

theorem collapseSlashes_cons_head : ∀ (b : Char) (rest : List Char),
    ∃ t, collapseSlashes (b :: rest) = b :: t
  | _, [] => ⟨[], rfl⟩
  | b, c :: rest => by
    simp only [collapseSlashes]
    split_ifs with h
    · obtain ⟨t, ht⟩ := collapseSlashes_cons_head c rest
      refine ⟨t, ?_⟩
      rw [ht]
      simp only [Bool.and_eq_true, decide_eq_true_eq] at h
      rw [h.1, h.2]
    · exact ⟨collapseSlashes (c :: rest), rfl⟩

theorem chain_collapseSlashes : ∀ (l : List Char),
    (collapseSlashes l).Chain' (fun a b => ¬ (a = '/' ∧ b = '/'))
  | [] => List.chain'_nil
  | [a] => by simp [collapseSlashes]
  | a :: b :: rest => by
    simp only [collapseSlashes]
    split_ifs with hab
    · exact chain_collapseSlashes (b :: rest)
    · obtain ⟨t, ht⟩ := collapseSlashes_cons_head b rest
      rw [ht, List.chain'_cons]
      refine ⟨?_, ?_⟩
      · simp only [Bool.and_eq_true, decide_eq_true_eq] at hab
        tauto
      · rw [← ht]
        exact chain_collapseSlashes (b :: rest)

theorem collapseSlashes_eq_self : ∀ (l : List Char),
    l.Chain' (fun a b => ¬ (a = '/' ∧ b = '/')) → collapseSlashes l = l
  | [], _ => rfl
  | [_], _ => rfl
  | a :: b :: rest, h => by
    rw [List.chain'_cons] at h
    simp only [collapseSlashes]
    rw [if_neg (by simpa using h.1), collapseSlashes_eq_self (b :: rest) h.2]

theorem map_replaceBackslash_eq_self : ∀ (l : List Char), (∀ c ∈ l, c ≠ '\\') →
    l.map (fun c => if c = '\\' then '/' else c) = l
  | [], _ => rfl
  | c :: t, h => by
    simp only [List.map_cons]
    rw [if_neg (h c (by simp)),
      map_replaceBackslash_eq_self t (fun x hx => h x (by simp [hx]))]

theorem head?_dropWhile_not (p : Char → Bool) :
    ∀ (l : List Char) (c : Char), (l.dropWhile p).head? = some c → p c = false
  | [], c, h => by simp at h
  | a :: t, c, h => by
    rw [List.dropWhile_cons] at h
    split_ifs at h with ha
    · exact head?_dropWhile_not p t c h
    · simp only [List.head?_cons, Option.some.injEq] at h
      subst h
      simpa using ha

theorem rstripSlash_eq_self (l : List Char)
    (h : ∀ c, l.getLast? = some c → c ≠ '/') : rstripSlash l = l := by
  unfold rstripSlash
  cases hr : l.reverse with
  | nil =>
    have : l = [] := by simpa using congrArg List.reverse hr
    subst this
    rfl
  | cons c t =>
    rw [List.dropWhile_cons]
    have hc : c ≠ '/' := by
      apply h
      rw [← List.head?_reverse, hr]
      rfl
    rw [if_neg (by simpa using hc), ← hr, List.reverse_reverse]

theorem rstripSlash_getLast (l : List Char) (c : Char)
    (h : (rstripSlash l).getLast? = some c) : c ≠ '/' := by
  unfold rstripSlash at h
  rw [List.getLast?_reverse] at h
  have := head?_dropWhile_not _ _ _ h
  simpa using this

theorem rstripSlash_append (l : List Char) : ∃ t, l = rstripSlash l ++ t := by
  refine ⟨(l.reverse.takeWhile (· = '/')).reverse, ?_⟩
  unfold rstripSlash
  conv_lhs => rw [← List.reverse_reverse l,
    ← List.takeWhile_append_dropWhile (· = '/') l.reverse]
  rw [List.reverse_append]

theorem stripDotSlash_cases (l : List Char) :
    stripDotSlash l = l ∨ ∃ rest, l = '.' :: '/' :: rest ∧ stripDotSlash l = rest := by
  match l with
  | [] => exact Or.inl rfl
  | [c] => exact Or.inl rfl
  | c1 :: c2 :: rest =>
    simp only [stripDotSlash]
    split_ifs with h
    · exact Or.inr ⟨rest, by rw [h.1, h.2], rfl⟩
    · exact Or.inl rfl
theorem lowerUntilDot_eq : ∀ (r : List Char),
    lowerUntilDot r =
      (r.takeWhile (fun c => c ≠ '.')).map lowerAscii ++ r.dropWhile (fun c => c ≠ '.')
  | [] => rfl
  | c :: rest => by
    by_cases h1 : c = '.'
    · subst h1
      simp [lowerUntilDot]
    · simp [lowerUntilDot, h1, lowerUntilDot_eq rest]

theorem lowerExt_decomp (l : List Char) :
    ∃ u w, l = u ++ w ∧ lowerExt l = u ++ w.map lowerAscii := by
  unfold lowerExt
  split_ifs with hdot
  · refine ⟨(l.reverse.dropWhile (fun c => c ≠ '.')).reverse,
      (l.reverse.takeWhile (fun c => c ≠ '.')).reverse, ?_, ?_⟩
    · conv_lhs => rw [← List.reverse_reverse l]
      rw [← List.reverse_append, List.takeWhile_append_dropWhile]
    · rw [lowerUntilDot_eq, List.reverse_append, ← List.map_reverse]
  · exact ⟨l, [], by simp, by simp⟩

theorem chain_lowerExt (l : List Char)
    (h : l.Chain' (fun a b => ¬ (a = '/' ∧ b = '/'))) :
    (lowerExt l).Chain' (fun a b => ¬ (a = '/' ∧ b = '/')) := by
  obtain ⟨u, w, hl, hle⟩ := lowerExt_decomp l
  rw [hle]
  rw [hl, List.chain'_append] at h
  rw [List.chain'_append]
  refine ⟨h.1, ?_, ?_⟩
  · rw [List.chain'_map]
    refine h.2.1.imp ?_
    intro a b hab hc
    exact hab ⟨(lowerAscii_slash a).1 hc.1, (lowerAscii_slash b).1 hc.2⟩
  · intro x hx y hy
    rw [List.head?_map] at hy
    cases hw : w.head? with
    | none =>
      rw [hw] at hy
      cases hy
    | some y0 =>
      rw [hw] at hy
      simp only [Option.map_some', Option.mem_def, Option.some.injEq] at hy
      intro hc
      exact h.2.2 x hx y0 (by rw [hw]; rfl)
        ⟨hc.1, (lowerAscii_slash y0).1 (by rw [hy]; exact hc.2)⟩

theorem lowerExt_last_ne_slash (l : List Char)
    (h : ∀ c, l.getLast? = some c → c ≠ '/') :
    ∀ c, (lowerExt l).getLast? = some c → c ≠ '/' := by
  obtain ⟨u, w, hl, hle⟩ := lowerExt_decomp l
  intro c hc
  rw [hle] at hc
  cases hw : w with
  | nil =>
    subst hw
    simp only [List.map_nil, List.append_nil] at hc
    exact h c (by rw [hl, List.append_nil]; exact hc)
  | cons w0 wt =>
    have hwne : w.map lowerAscii ≠ [] := by
      rw [hw]
      simp
    rw [List.getLast?_append_of_ne_nil _ hwne] at hc
    rw [← List.head?_reverse, ← List.map_reverse, List.head?_map] at hc
    cases hrev : w.reverse.head? with
    | none =>
      rw [hrev] at hc
      cases hc
    | some c0 =>
      rw [hrev] at hc
      simp only [Option.map_some', Option.some.injEq] at hc
      have hc0 : l.getLast? = some c0 := by
        rw [hl, List.getLast?_append_of_ne_nil _ (by rw [hw]; simp),
          ← List.head?_reverse, hrev]
      intro he
      exact h c0 hc0 ((lowerAscii_slash c0).1 (by rw [hc]; exact he))

theorem lowerExt_no_backslash (l : List Char) (h : ∀ c ∈ l, c ≠ '\\') :
    ∀ c ∈ lowerExt l, c ≠ '\\' := by
  obtain ⟨u, w, hl, hle⟩ := lowerExt_decomp l
  intro c hc
  rw [hle, List.mem_append] at hc
  rcases hc with hc | hc
  · exact h c (by rw [hl, List.mem_append]; exact Or.inl hc)
  · rw [List.mem_map] at hc
    obtain ⟨x, hx, hxc⟩ := hc
    intro he
    have hxb : x = '\\' := (lowerAscii_backslash x).1 (by rw [hxc, he])
    exact h x (by rw [hl, List.mem_append]; exact Or.inr hx) hxb

theorem lowerExt_printable (l : List Char) (h : l.all isPrintableAscii = true) :
    (lowerExt l).all isPrintableAscii = true := by
  obtain ⟨u, w, hl, hle⟩ := lowerExt_decomp l
  rw [hl, List.all_append] at h
  rw [hle, List.all_append, List.all_map]
  simp only [Bool.and_eq_true, List.all_eq_true] at h ⊢
  exact ⟨h.1, fun x hx => lowerAscii_printable x (h.2 x hx)⟩

theorem lowerExt_length (l : List Char) : (lowerExt l).length = l.length := by
  obtain ⟨u, w, hl, hle⟩ := lowerExt_decomp l
  rw [hle]
  conv_rhs => rw [hl]
  simp

theorem mem_stripDotSlash (l : List Char) (c : Char) (h : c ∈ stripDotSlash l) :
    c ∈ l := by
  rcases stripDotSlash_cases l with he | ⟨rest, hl, he⟩
  · rw [← he]
    exact h
  · rw [he] at h
    rw [hl]
    simp [h]

theorem chain_stripDotSlash (l : List Char)
    (h : l.Chain' (fun a b => ¬ (a = '/' ∧ b = '/'))) :
    (stripDotSlash l).Chain' (fun a b => ¬ (a = '/' ∧ b = '/')) := by
  rcases stripDotSlash_cases l with he | ⟨rest, hl, he⟩
  · rw [he]
    exact h
  · rw [he]
    rw [hl] at h
    exact h.tail.tail

theorem lowerUntilDot_idem : ∀ (r : List Char),
    lowerUntilDot (lowerUntilDot r) = lowerUntilDot r
  | [] => rfl
  | c :: rest => by
    by_cases h1 : c = '.'
    · subst h1
      simp [lowerUntilDot]
    · have hne : lowerAscii c ≠ '.' := fun he => h1 ((lowerAscii_dot c).1 he)
      simp only [lowerUntilDot, if_neg h1, if_neg hne]
      rw [lowerAscii_idem, lowerUntilDot_idem rest]

theorem lowerExt_idem (l : List Char) : lowerExt (lowerExt l) = lowerExt l := by
  by_cases h1 : l.contains '.' = true
  · have hinner : lowerExt l = (lowerUntilDot l.reverse).reverse := by
      simp only [lowerExt, if_pos h1]
    by_cases h2 : (lowerExt l).contains '.' = true
    · rw [hinner] at h2 ⊢
      simp only [lowerExt, if_pos h2, List.reverse_reverse, lowerUntilDot_idem]
    · rw [hinner] at h2 ⊢
      simp only [lowerExt, if_neg h2]
  · have hinner : lowerExt l = l := by simp only [lowerExt, if_neg h1]
    rw [hinner, hinner]

/-- C3 counterexample: normalization is not idempotent. `normalize("././x")`
is `"./x"`, whose re-normalization is `"x" ≠ "./x"`; worse, `normalize("./ /")`
is `" "`, whose re-normalization fails outright, because the code strips
whitespace and removes the leading `"./"` only once, in that order. -/
theorem C3_idempotency_counterexample :
    normalize_resource_path "././x".toList = some "./x".toList ∧
    normalize_resource_path "./x".toList = some "x".toList ∧
    "./x".toList ≠ "x".toList ∧
    normalize_resource_path "./ /".toList = some " ".toList ∧
    normalize_resource_path " ".toList = none :=
  ⟨by decide, by decide, by decide, by decide, by decide⟩

/-- C3 (amended): normalization is a fixed point on its own output provided
the output has no leading/trailing Python whitespace left and no leading
`"./"` — the two single-pass steps of the source. For any `q` produced by
`normalize_resource_path` that additionally satisfies `pyStrip q = q` and
`stripDotSlash q = q`, re-normalizing `q` succeeds and returns `q` itself. -/
theorem C3_normalize_idempotent (p q : List Char)
    (h : normalize_resource_path p = some q)
    (hstrip : pyStrip q = q) (hdot : stripDotSlash q = q) :
    normalize_resource_path q = some q := by
  simp only [normalize_resource_path] at h
  split_ifs at h with h0 h2 h3
  injection h with hq
  have f1 : ∀ c ∈ (pyStrip p).map (fun c => if c = '\\' then '/' else c),
      c ≠ '\\' := by
    intro c hc
    rw [List.mem_map] at hc
    obtain ⟨x, _, hxc⟩ := hc
    subst hxc
    split_ifs with hx
    · decide
    · exact hx
  have f3 : (stripDotSlash (collapseSlashes ((pyStrip p).map
      (fun c => if c = '\\' then '/' else c)))).Chain'
      (fun a b => ¬ (a = '/' ∧ b = '/')) :=
    chain_stripDotSlash _ (chain_collapseSlashes _)
  obtain ⟨t, ht⟩ := rstripSlash_append (stripDotSlash (collapseSlashes
    ((pyStrip p).map (fun c => if c = '\\' then '/' else c))))
  have f4 : (rstripSlash (stripDotSlash (collapseSlashes ((pyStrip p).map
      (fun c => if c = '\\' then '/' else c))))).Chain'
      (fun a b => ¬ (a = '/' ∧ b = '/')) := by
    rw [ht] at f3
    exact (List.chain'_append.1 f3).1
  have f6 : ∀ c ∈ rstripSlash (stripDotSlash (collapseSlashes ((pyStrip p).map
      (fun c => if c = '\\' then '/' else c)))), c ≠ '\\' := by
    intro c hc
    have hmem : c ∈ stripDotSlash (collapseSlashes ((pyStrip p).map
        (fun c => if c = '\\' then '/' else c))) := by
      rw [ht]
      exact List.mem_append_left _ hc
    exact f1 c (mem_collapseSlashes _ c (mem_stripDotSlash _ c hmem))
  have f8 : ∀ c, (rstripSlash (stripDotSlash (collapseSlashes ((pyStrip p).map
      (fun c => if c = '\\' then '/' else c))))).getLast? = some c → c ≠ '/' :=
    fun c hc => rstripSlash_getLast _ c hc
  have fqc : q.Chain' (fun a b => ¬ (a = '/' ∧ b = '/')) := by
    rw [← hq]
    exact chain_lowerExt _ f4
  have fqb : ∀ c ∈ q, c ≠ '\\' := by
    rw [← hq]
    exact lowerExt_no_backslash _ f6
  have fql : ∀ c, q.getLast? = some c → c ≠ '/' := by
    rw [← hq]
    exact lowerExt_last_ne_slash _ f8
  have fqa : q.all isPrintableAscii = true := by
    rw [← hq]
    exact lowerExt_printable _ h3
  have fqn : q ≠ [] := by
    rw [← hq]
    intro h0'
    apply h2
    have hlen := lowerExt_length (rstripSlash (stripDotSlash (collapseSlashes
      ((pyStrip p).map (fun c => if c = '\\' then '/' else c)))))
    rw [h0'] at hlen
    exact List.length_eq_zero.1 hlen.symm
  have fqi : lowerExt q = q := by
    rw [← hq]
    exact lowerExt_idem _
  simp only [normalize_resource_path]
  rw [hstrip, map_replaceBackslash_eq_self q fqb, collapseSlashes_eq_self q fqc,
    hdot, rstripSlash_eq_self q fql]
  rw [if_neg fqn, if_neg fqn, if_pos fqa, fqi]

/-- Witness for C3: the concrete path `"./a/B.TXT"` normalizes to `"a/B.txt"`,
which satisfies both side conditions and is indeed a fixed point. -/
theorem C3_normalize_idempotent_witness :
    normalize_resource_path "a/B.txt".toList = some "a/B.txt".toList :=
  C3_normalize_idempotent "./a/B.TXT".toList "a/B.txt".toList
    (by decide) (by decide) (by decide)
